import Mathlib

/-!
# Tempesta DB hash trie header (`htrie.h`): layout constants and record predicates

A shallow embedding of the definitions of `src/htrie/htrie.h`.

Conventions of the embedding (x86-64, LP64, little-endian; the header itself fixes
`BITS_PER_LONG = 64` and uses `crc32q`):

* `unsigned long`, `size_t` and pointers are naturals taken modulo `2 ^ 64`,
  `unsigned int` is a natural taken modulo `2 ^ 32`; every place where the C
  arithmetic can wrap carries an explicit `%`.
* Function-like preprocessor definitions are type-generic in C.  Where the result
  depends on the operand type (`TDB_DI2O`, `TDB_II2O`), the embedding takes the bit
  width of the promoted operand type as its first argument.
* A record is its key followed by raw bytes (`Nat → Nat`, offset ↦ byte); words of
  wider types are read little-endian.
* Constants and types declared in other headers (`TDB_EXT_SZ`, `sizeof(TdbExt)`) are
  parameters of the definitions that use them.
* The CRC instructions of the key hash are function parameters; the hash is generic in the
  type of the running CRC, which gives both its value and the places it reads.
-/

namespace Htrie

/-! ## Machine integers -/

/-- Conversion to `unsigned int`. -/
def u32 (n : Nat) : Nat := n % 2 ^ 32

/-- Conversion to `unsigned long`. -/
def u64 (n : Nat) : Nat := n % 2 ^ 64

/-- Bitwise complement of an `unsigned int`. -/
def not32 (n : Nat) : Nat := 2 ^ 32 - 1 - n % 2 ^ 32

/-- Bitwise complement of an `unsigned long`. -/
def not64 (n : Nat) : Nat := 2 ^ 64 - 1 - n % 2 ^ 64

/-- C truth value of a scalar: `!!x`. -/
def toBit (x : Nat) : Nat := if x ≠ 0 then 1 else 0

/-- The null pointer. -/
def NULL : Nat := 0

/-- Little-endian 4-byte load at byte offset `off`. -/
def load32 (bytes : Nat → Nat) (off : Nat) : Nat :=
  bytes off + bytes (off + 1) * 256 + bytes (off + 2) * 256 ^ 2 + bytes (off + 3) * 256 ^ 3

/-- Little-endian 8-byte load at byte offset `off`. -/
def load64 (bytes : Nat → Nat) (off : Nat) : Nat :=
  bytes off + bytes (off + 1) * 256 + bytes (off + 2) * 256 ^ 2 + bytes (off + 3) * 256 ^ 3
    + bytes (off + 4) * 256 ^ 4 + bytes (off + 5) * 256 ^ 5 + bytes (off + 6) * 256 ^ 6
    + bytes (off + 7) * 256 ^ 7

/-! ## Sizes of the scalar types -/

/-- Size of `unsigned long` / `long` in bytes (`BITS_PER_LONG / 8`). -/
def sizeof_long : Nat := 8

/-- Size of `unsigned int` / `int` in bytes. -/
def sizeof_int : Nat := 4

/-- Size of a data pointer in bytes. -/
def sizeof_ptr : Nat := 8

/-- Modelled from the spec: `atomic.h` is not part of the sources; the header table of the
specification gives the atomic cursor `nwb` eight bytes. -/
def sizeof_atomic64_t : Nat := 8

/-! ## Constants -/

def PAGE_SIZE : Nat := 4096
def BITS_PER_LONG : Nat := 64
def L1_CACHE_BYTES : Nat := 64

/-- Index nodes are one cache line. -/
def TDB_HTRIE_NODE_SZ : Nat := L1_CACHE_BYTES

/-- The minimum data record block: two cache lines. -/
def TDB_HTRIE_MINDREC : Nat := L1_CACHE_BYTES * 2

def TDB_HTRIE_BITS : Nat := 4
def TDB_HTRIE_FANOUT : Nat := 1 <<< TDB_HTRIE_BITS
def TDB_HTRIE_KMASK : Nat := TDB_HTRIE_FANOUT - 1

/-- The data flag `1U << (sizeof(int) * 8 - 1)`, an `unsigned int`. -/
def TDB_HTRIE_DBIT : Nat := u32 (1 <<< (sizeof_int * 8 - 1))

/-- The offset mask `TDB_HTRIE_DBIT - 1`, an `unsigned int`. -/
def TDB_HTRIE_OMASK : Nat := u32 (TDB_HTRIE_DBIT + 2 ^ 32 - 1)

/-- The largest table: `(1UL << 31) * L1_CACHE_BYTES`, an `unsigned long`. -/
def TDB_MAX_DB_SZ : Nat := u64 (u64 (1 <<< 31) * L1_CACHE_BYTES)

def TDB_HTRIE_VRFREED : Nat := TDB_HTRIE_DBIT

/-! ## Data model -/

/-- The database descriptor `TdbHdr` (the value fields; `_padding` and the trailing
`ext_bmp[0]` carry no value here, their layout is `TdbHdr_fieldSize`). -/
structure TdbHdr where
  magic : Nat
  dbsz : Nat
  nwb : Nat
  pcpu : Nat
  rec_len : Nat

/-- Fixed-size record `TdbFRec`: the key and the bytes that follow it. -/
structure TdbFRec where
  key : Nat
  data : Nat → Nat

/-- Variable-size record chunk `TdbVRec`. -/
structure TdbVRec where
  key : Nat
  chunk_next : Nat
  len : Nat
  data : Nat → Nat

/-- Bucket header `TdbBucket` (`lock` is kept as an uninterpreted word). -/
structure TdbBucket where
  coll_next : Nat
  flags : Nat
  lock : Nat

/-- The pointer cast `(TdbVRec *)r` of a record: the two `unsigned int` fields overlay the
first eight bytes after the key. -/
def TdbFRec.toVRec (r : TdbFRec) : TdbVRec :=
  { key := r.key
    chunk_next := load32 r.data 0
    len := load32 r.data 4
    data := fun i => r.data (i + 8) }

/-- The word `((unsigned long *)rec)[i]` of a record. -/
def TdbFRec.word (r : TdbFRec) (i : Nat) : Nat :=
  if i = 0 then r.key else load64 r.data (8 * (i - 1))

/-- Size of the packed `TdbFRec`: the key and a zero-length array. -/
def sizeof_TdbFRec : Nat := sizeof_long + 0

/-- Size of the packed `TdbVRec`: key, `chunk_next`, `len` and a zero-length array. -/
def sizeof_TdbVRec : Nat := sizeof_long + sizeof_int + sizeof_int + 0

/-! ## Layout of the packed header -/

/-- The members of `TdbHdr` in declaration order. -/
inductive TdbHdrField
  | magic | dbsz | nwb | pcpu | rec_len | _padding | ext_bmp
  deriving DecidableEq, Repr

/-- Declaration order of the members of `TdbHdr`. -/
def TdbHdr_fields : List TdbHdrField :=
  [.magic, .dbsz, .nwb, .pcpu, .rec_len, ._padding, .ext_bmp]

/-- Size in bytes of each member of `TdbHdr`. -/
def TdbHdr_fieldSize : TdbHdrField → Nat
  | .magic => sizeof_long
  | .dbsz => sizeof_long
  | .nwb => sizeof_atomic64_t
  | .pcpu => sizeof_ptr
  | .rec_len => sizeof_int
  | ._padding => 1 * (8 * 3 + 4)
  | .ext_bmp => sizeof_long * 0

/-- Offset of a member in a packed structure: the sizes of the members declared before it. -/
def packedOffset {α : Type} [DecidableEq α] (size : α → Nat) : List α → α → Nat
  | [], _ => 0
  | f :: fs, g => if f = g then 0 else size f + packedOffset size fs g

/-- Size of a packed structure: no padding is added anywhere. -/
def packedSizeof {α : Type} (size : α → Nat) (fs : List α) : Nat :=
  (fs.map size).sum

def offsetof_TdbHdr (f : TdbHdrField) : Nat := packedOffset TdbHdr_fieldSize TdbHdr_fields f

def sizeof_TdbHdr : Nat := packedSizeof TdbHdr_fieldSize TdbHdr_fields

/-! ## Offsets, indexes and alignment -/

/-- `TDB_PTR(h, o)`: pointer at byte offset `o` from `h`. -/
def TDB_PTR (h o : Nat) : Nat := u64 (h + o)

/-- `TDB_O2DI(o)`: data block index of a byte offset. -/
def TDB_O2DI (o : Nat) : Nat := o / TDB_HTRIE_MINDREC

/-- `TDB_O2II(o)`: index block index of a byte offset. -/
def TDB_O2II (o : Nat) : Nat := o / TDB_HTRIE_NODE_SZ

/-- `TDB_DI2O(i)` on an unsigned operand of `w` bits: the product is computed in that type. -/
def TDB_DI2O (w : Nat) (i : Nat) : Nat := (i * TDB_HTRIE_MINDREC) % 2 ^ w

/-- `TDB_II2O(i)` on an unsigned operand of `w` bits. -/
def TDB_II2O (w : Nat) (i : Nat) : Nat := (i * TDB_HTRIE_NODE_SZ) % 2 ^ w

/-- `TDB_HTRIE_VARLENRECS(h)`: `!(h)->rec_len`. -/
def TDB_HTRIE_VARLENRECS (h : TdbHdr) : Bool := h.rec_len == 0

/-- `TDB_HTRIE_RALIGN(n)`: `((unsigned long)(n) + 7) & ~7UL`. -/
def TDB_HTRIE_RALIGN (n : Nat) : Nat := u64 (u64 n + 7) &&& not64 7

/-- `TDB_HTRIE_RESOLVED(b)` on an `int` operand: `b + TDB_HTRIE_BITS > BITS_PER_LONG`, the
sum taken in 32-bit two's complement. -/
def TDB_HTRIE_RESOLVED (b : Int) : Bool :=
  decide (((b + TDB_HTRIE_BITS + 2 ^ 31) % 2 ^ 32 - 2 ^ 31 : Int) > (BITS_PER_LONG : Int))

/-- `TDB_HTRIE_IDX(k, b)` on an `unsigned long` key: `((k) >> (b)) & TDB_HTRIE_KMASK`. -/
def TDB_HTRIE_IDX (k b : Nat) : Nat := (k >>> b) &&& TDB_HTRIE_KMASK

/-- `TDB_EXT_BMP_2L(h)`: number of bitmap words; the extent size `TDB_EXT_SZ` is defined
outside this header and is a parameter. -/
def TDB_EXT_BMP_2L (TDB_EXT_SZ : Nat) (h : TdbHdr) : Nat :=
  u64 (h.dbsz / TDB_EXT_SZ + BITS_PER_LONG - 1) / BITS_PER_LONG

/-- `TDB_HTRIE_VRLEN(r)`: `(r)->len & ~TDB_HTRIE_VRFREED`. -/
def TDB_HTRIE_VRLEN (r : TdbVRec) : Nat := r.len &&& not32 TDB_HTRIE_VRFREED

/-- `TDB_HTRIE_RBODYLEN(h, r)`: `(h)->rec_len ?: TDB_HTRIE_VRLEN((TdbVRec *)r)`. -/
def TDB_HTRIE_RBODYLEN (h : TdbHdr) (r : TdbFRec) : Nat :=
  if h.rec_len ≠ 0 then h.rec_len else TDB_HTRIE_VRLEN r.toVRec

/-- `TDB_HTRIE_RECLEN(h, r)` for `r` of type `TdbFRec *`: the type test selects
`(h)->rec_len`. -/
def TDB_HTRIE_RECLEN_FRec (h : TdbHdr) (_r : TdbFRec) : Nat :=
  TDB_HTRIE_RALIGN (u64 (sizeof_TdbFRec + h.rec_len))

/-- `TDB_HTRIE_RECLEN(h, r)` for `r` of type `TdbVRec *`: the type test selects
`TDB_HTRIE_VRLEN(r)`. -/
def TDB_HTRIE_RECLEN_VRec (_h : TdbHdr) (r : TdbVRec) : Nat :=
  TDB_HTRIE_RALIGN (u64 (sizeof_TdbVRec + TDB_HTRIE_VRLEN r))

/-- `TDB_HTRIE_BUCKET_NEXT(h, b)`: `coll_next` is an `unsigned int`, so `TDB_DI2O` multiplies
in 32 bits; the product is then added to the header pointer. -/
def TDB_HTRIE_BUCKET_NEXT (h : Nat) (b : TdbBucket) : Nat :=
  if b.coll_next ≠ 0 then TDB_PTR h (TDB_DI2O 32 b.coll_next) else NULL

/-- `TDB_HDR_SZ(h)`: `sizeof(TdbHdr) + TDB_EXT_BMP_2L(h) * sizeof(long)`. -/
def TDB_HDR_SZ (TDB_EXT_SZ : Nat) (h : TdbHdr) : Nat :=
  u64 (sizeof_TdbHdr + u64 (TDB_EXT_BMP_2L TDB_EXT_SZ h * sizeof_long))

/-! ## Liveness predicates -/

/-- The loop of `tdb_live_fsrec`: `for (i = 0; i < len; ++i) res |= !!words[i]`.  The first
argument is the number of iterations still to run, `len - i`; the counter `i` is an `int` in
the source and stays below `2 ^ 31` because `len ≤ 2 ^ 29 + 1` for a 32-bit `rec_len`. -/
def tdb_live_fsrec_loop (rec : TdbFRec) : Nat → Nat → Nat → Nat
  | 0, _, res => res
  | n + 1, i, res => tdb_live_fsrec_loop rec n (i + 1) (res ||| toBit (rec.word i))

/-- Number of words `tdb_live_fsrec` inspects:
`TDB_HTRIE_RALIGN(sizeof(*rec) + dbh->rec_len) / sizeof(long)`. -/
def tdb_live_fsrec_len (dbh : TdbHdr) : Nat :=
  TDB_HTRIE_RALIGN (u64 (sizeof_TdbFRec + dbh.rec_len)) / sizeof_long

/-- `tdb_live_fsrec(dbh, rec)`. -/
def tdb_live_fsrec (dbh : TdbHdr) (rec : TdbFRec) : Nat :=
  tdb_live_fsrec_loop rec (tdb_live_fsrec_len dbh) 0 0

/-- `tdb_live_vsrec(rec)`: `rec->len && !(rec->len & TDB_HTRIE_VRFREED)`. -/
def tdb_live_vsrec (rec : TdbVRec) : Nat :=
  if rec.len ≠ 0 ∧ ¬ (rec.len &&& TDB_HTRIE_VRFREED ≠ 0) then 1 else 0

/-- `tdb_live_rec(dbh, r)`. -/
def tdb_live_rec (dbh : TdbHdr) (r : TdbFRec) : Nat :=
  if TDB_HTRIE_VARLENRECS dbh then tdb_live_vsrec r.toVRec else tdb_live_fsrec dbh r

/-! ## Alignment of index and data offsets, the root node -/

/-- `TDB_HTRIE_IALIGN(n)` on an unsigned operand of `w` bits:
`((n) + L1_CACHE_BYTES - 1) & ~(L1_CACHE_BYTES - 1)`.  The mask is the `int` `~63 = -64`,
which converts to `2 ^ w - 64` in the operand type. -/
def TDB_HTRIE_IALIGN (w : Nat) (n : Nat) : Nat :=
  ((n + L1_CACHE_BYTES - 1) % 2 ^ w) &&& (2 ^ w - 1 - (L1_CACHE_BYTES - 1))

/-- `TDB_HTRIE_DMASK`, the `int` `~(TDB_HTRIE_MINDREC - 1) = -128`, converted to an unsigned
type of `w` bits. -/
def TDB_HTRIE_DMASK (w : Nat) : Nat := 2 ^ w - 1 - (TDB_HTRIE_MINDREC - 1)

/-- `TDB_HTRIE_DALIGN(n)` on an unsigned operand of `w` bits:
`((n) + TDB_HTRIE_MINDREC - 1) & TDB_HTRIE_DMASK`. -/
def TDB_HTRIE_DALIGN (w : Nat) (n : Nat) : Nat :=
  ((n + TDB_HTRIE_MINDREC - 1) % 2 ^ w) &&& TDB_HTRIE_DMASK w

/-- `TDB_BLK_BMP_2L`: words of the block bitmap of an extent,
`TDB_EXT_SZ / PAGE_SIZE / BITS_PER_LONG`. -/
def TDB_BLK_BMP_2L (TDB_EXT_SZ : Nat) : Nat := TDB_EXT_SZ / PAGE_SIZE / BITS_PER_LONG

/-- `TDB_HTRIE_ROOT(h)`: `(char *)(h) + TDB_HDR_SZ(h) + sizeof(TdbExt)`, for a header at
address `hp`.  `TdbExt` is declared outside this header; its size is a parameter. -/
def TDB_HTRIE_ROOT (TDB_EXT_SZ sizeof_TdbExt : Nat) (hp : Nat) (h : TdbHdr) : Nat :=
  u64 (u64 (hp + TDB_HDR_SZ TDB_EXT_SZ h) + sizeof_TdbExt)

/-! ## Key hashing

`CRCQ` and `CRCB` are inline assembly (`crc32q`, `crc32b`); the embedding takes the two
instructions as functions `crcq`, `crcb` from the running CRC and the operand to the new CRC.
The memory reads `d[i]` (8-byte word `i` of the input) and `data[n]` (byte `n`) are the
functions `rdq` and `rdb`.  The code is generic in the type `σ` of the running CRC, so that
the same definition yields the hash value (`σ = Nat`) and the sequence of reads of each
stream (`σ = List CrcRead`, each step appending the place it was fed from). -/

/-- The loop `for (i = 0; i < n; i += 2) { CRCQ(*crc0, d[i]); CRCQ(*crc1, d[i + 1]); }`
started at `i`; the first numeric argument bounds the number of iterations. -/
def hash_pair_loop {σ : Type} (crcq : σ → Nat → σ) (rdq : Nat → Nat) (n : Nat) :
    Nat → Nat → σ → σ → σ × σ
  | 0, _, crc0, crc1 => (crc0, crc1)
  | fuel + 1, i, crc0, crc1 =>
    if i < n then
      hash_pair_loop crcq rdq n fuel (i + 2) (crcq crc0 (rdq i)) (crcq crc1 (rdq (i + 1)))
    else (crc0, crc1)

/-- The loop `for (n = start; n < len; ++n) CRCB(*crc, data[n]);`; the first numeric
argument bounds the number of iterations. -/
def hash_byte_loop {σ : Type} (crcb : σ → Nat → σ) (rdb : Nat → Nat) (len : Nat) :
    Nat → Nat → σ → σ
  | 0, _, crc => crc
  | fuel + 1, n, crc =>
    if n < len then hash_byte_loop crcb rdb len fuel (n + 1) (crcb crc (rdb n)) else crc

/-- `__tdb_hash_calc(crc0, crc1, data, len)`: the final values of `*crc0` and `*crc1`.  Each
loop is given as many iterations as its bound allows (`n` and `len`). -/
def __tdb_hash_calc {σ : Type} (crcq crcb : σ → Nat → σ) (rdq rdb : Nat → Nat)
    (crc0 crc1 : σ) (len : Nat) : σ × σ :=
  let n := (len >>> 3) &&& not64 1
  let s := hash_pair_loop crcq rdq n n 0 crc0 crc1
  if u64 ((n + 1) <<< 3) ≤ len then
    (crcq s.1 (rdq n), hash_byte_loop crcb rdb len len (u64 ((n + 1) <<< 3)) s.2)
  else
    (hash_byte_loop crcb rdb len len (u64 (n <<< 3)) s.1, s.2)

/-- `tdb_hash_calc(data, len)`: both CRCs start at 0, the result is `(crc1 << 32) | crc0`. -/
def tdb_hash_calc (crcq crcb : Nat → Nat → Nat) (data : Nat → Nat) (len : Nat) : Nat :=
  let s := __tdb_hash_calc crcq crcb (fun i => load64 data (8 * i)) data 0 0 len
  u64 (s.2 <<< 32) ||| s.1

/-- The place a CRC step is fed from: the 8-byte word `d[i]` or the byte `data[n]`. -/
inductive CrcRead
  | word (i : Nat)
  | byte (n : Nat)
  deriving DecidableEq, Repr

/-- Byte positions of the input that a read covers. -/
def CrcRead.bytes : CrcRead → List Nat
  | .word i => List.range' (8 * i) 8
  | .byte n => [n]

/-- The reads of `__tdb_hash_calc` on an input of `len` bytes, stream `crc0` first, stream
`crc1` second, each in program order: the code run with CRCs that record their operands and
with reads that return the place read. -/
def __tdb_hash_calc_reads (len : Nat) : List CrcRead × List CrcRead :=
  __tdb_hash_calc (fun log i => log ++ [CrcRead.word i]) (fun log n => log ++ [CrcRead.byte n])
    id id [] [] len

/-- Feeding a list of reads to a running CRC, in order. -/
def crc_feed {σ : Type} (crcq crcb : σ → Nat → σ) (rdq rdb : Nat → Nat) (crc : σ)
    (reads : List CrcRead) : σ :=
  reads.foldl (fun c r => match r with
    | .word i => crcq c (rdq i)
    | .byte n => crcb c (rdb n)) crc

/-- A 32-bit valued stand-in for the CRC instructions, used to run the hash on examples. -/
def crc_example (crc operand : Nat) : Nat := (crc * 33 + operand) % 2 ^ 32

/-- An example input: byte `i` is `i % 251`. -/
def key_example (i : Nat) : Nat := i % 251

/-! ## Sanity checks of the embedding on concrete inputs -/

example : TDB_HTRIE_IALIGN 64 65 = 128 := by decide
example : TDB_HTRIE_DALIGN 32 129 = 256 := by decide
example : TDB_HTRIE_ROOT (2 ^ 21) 64 0 ⟨0, 2 ^ 24, 0, 0, 16⟩ = 136 := by decide
example : __tdb_hash_calc_reads 27 =
    ([.word 0, .word 2], [.word 1, .byte 24, .byte 25, .byte 26]) := by decide
example : __tdb_hash_calc_reads 7 =
    ([.byte 0, .byte 1, .byte 2, .byte 3, .byte 4, .byte 5, .byte 6], []) := by decide
example : __tdb_hash_calc_reads 8 = ([.word 0], []) := by decide
example : tdb_hash_calc (fun c d => (c * 31 + d) % 2 ^ 32) (fun c d => (c * 31 + d) % 2 ^ 32)
    (fun _ => 1) 0 = 0 := by decide

example : TDB_HTRIE_DBIT = 0x80000000 := by decide
example : TDB_HTRIE_OMASK = 0x7fffffff := by decide
example : TDB_HTRIE_RALIGN 13 = 16 := by decide
example : TDB_HTRIE_IDX 0x0123456789ABCDEF 4 = 0xE := by decide
example : TDB_HTRIE_RESOLVED 60 = false := by decide
example : TDB_HTRIE_RESOLVED 64 = true := by decide
example : sizeof_TdbHdr = 64 := by decide
example : tdb_live_fsrec ⟨0, 0, 0, 0, 16⟩ ⟨0, fun _ => 0⟩ = 0 := by decide
example : tdb_live_fsrec ⟨0, 0, 0, 0, 16⟩ ⟨0, fun i => if i = 15 then 1 else 0⟩ = 1 := by decide

/-! ## Arithmetic of masks -/

/-- Masking with `2 ^ n - 2 ^ k` clears the low `k` bits of an `n`-bit value. -/
theorem and_high_mask (x k n : Nat) (hk : k ≤ n) (hx : x < 2 ^ n) :
    x &&& (2 ^ n - 2 ^ k) = x / 2 ^ k * 2 ^ k := by
  have hmask : 2 ^ n - 2 ^ k = 2 ^ k * (2 ^ (n - k) - 1) := by
    have h1 : 2 ^ n = 2 ^ k * 2 ^ (n - k) := by
      rw [← Nat.pow_add]; congr 1; omega
    rw [Nat.mul_sub, Nat.mul_one, h1]
  apply Nat.eq_of_testBit_eq
  intro i
  rw [Nat.testBit_and, hmask, Nat.mul_comm (x / 2 ^ k), Nat.testBit_mul_pow_two,
    Nat.testBit_mul_pow_two, Nat.testBit_two_pow_sub_one, ← Nat.shiftRight_eq_div_pow,
    Nat.testBit_shiftRight]
  by_cases hik : k ≤ i
  · have hki : k + (i - k) = i := by omega
    rw [hki]
    by_cases hin : i < n
    · have : i - k < n - k := by omega
      simp [hik, this]
    · have hfalse : x.testBit i = false :=
        Nat.testBit_lt_two_pow (Nat.lt_of_lt_of_le hx (Nat.pow_le_pow_right (by decide) (by omega)))
      simp [hfalse]
  · simp [hik]

/-- Setting a bit above an `n`-bit value adds its weight. -/
theorem or_high_bit (x n : Nat) (hx : x < 2 ^ n) : x ||| 2 ^ n = x + 2 ^ n := by
  have h := Nat.mul_add_lt_is_or hx 1
  rw [Nat.mul_one] at h
  rw [Nat.or_comm, ← h, Nat.add_comm]

/-- The complement mask `~7UL` clears the low three bits. -/
theorem and_not64_seven (x : Nat) (hx : x < 2 ^ 64) : x &&& not64 7 = x / 8 * 8 := by
  have h := and_high_mask x 3 64 (by decide) hx
  have e : not64 7 = 2 ^ 64 - 2 ^ 3 := by decide
  rw [e, h]
  norm_num

/-- Value of `TDB_HTRIE_RALIGN` where the addition does not wrap. -/
theorem RALIGN_eq (n : Nat) (hn : n < 2 ^ 64 - 7) : TDB_HTRIE_RALIGN n = (n + 7) / 8 * 8 := by
  unfold TDB_HTRIE_RALIGN u64
  have h1 : n % 2 ^ 64 = n := Nat.mod_eq_of_lt (by omega)
  have h2 : (n + 7) % 2 ^ 64 = n + 7 := Nat.mod_eq_of_lt (by omega)
  rw [h1, h2]
  exact and_not64_seven (n + 7) (by omega)

/-- Testing the flag bit of an `unsigned int`. -/
theorem and_DBIT (v : Nat) (hv : v < 2 ^ 32) : v &&& TDB_HTRIE_DBIT = v / 2 ^ 31 * 2 ^ 31 := by
  have h := and_high_mask v 31 32 (by decide) hv
  have e : TDB_HTRIE_DBIT = 2 ^ 32 - 2 ^ 31 := by decide
  rw [e, h]

/-- Masking with the offset mask keeps the low 31 bits. -/
theorem and_OMASK (v : Nat) : v &&& TDB_HTRIE_OMASK = v % 2 ^ 31 := by
  have e : TDB_HTRIE_OMASK = 2 ^ 31 - 1 := by decide
  rw [e, Nat.and_pow_two_sub_one_eq_mod]

/-- Setting the flag bit on a 31-bit value. -/
theorem or_DBIT (v : Nat) (hv : v < 2 ^ 31) : v ||| TDB_HTRIE_DBIT = v + 2 ^ 31 := by
  have e : TDB_HTRIE_DBIT = 2 ^ 31 := by decide
  rw [e, or_high_bit v 31 hv]

/-! ## Fixed-size record liveness -/

theorem toBit_le_one (x : Nat) : toBit x ≤ 1 := by
  unfold toBit; split <;> omega

theorem or_toBit (res x : Nat) (hres : res ≤ 1) :
    (res ||| toBit x) ≤ 1 ∧ ((res ||| toBit x) ≠ 0 ↔ res ≠ 0 ∨ x ≠ 0) := by
  have hr : res = 0 ∨ res = 1 := by omega
  unfold toBit
  rcases hr with rfl | rfl <;> by_cases hx : x = 0 <;> simp [hx]

/-- The loop of `tdb_live_fsrec` accumulates whether any inspected word is non-zero. -/
theorem tdb_live_fsrec_loop_spec (rec : TdbFRec) (n : Nat) :
    ∀ i res, res ≤ 1 →
      tdb_live_fsrec_loop rec n i res ≤ 1 ∧
      (tdb_live_fsrec_loop rec n i res ≠ 0 ↔
        res ≠ 0 ∨ ∃ j, i ≤ j ∧ j < i + n ∧ rec.word j ≠ 0) := by
  induction n with
  | zero =>
    intro i res hres
    refine ⟨hres, ?_⟩
    constructor
    · intro h; exact Or.inl h
    · rintro (h | ⟨j, h1, h2, _⟩)
      · exact h
      · omega
  | succ n ih =>
    intro i res hres
    obtain ⟨hle, hiff⟩ := or_toBit res (rec.word i) hres
    obtain ⟨h1, h2⟩ := ih (i + 1) (res ||| toBit (rec.word i)) hle
    refine ⟨h1, ?_⟩
    show tdb_live_fsrec_loop rec n (i + 1) (res ||| toBit (rec.word i)) ≠ 0 ↔ _
    rw [h2, hiff]
    constructor
    · rintro ((h | h) | ⟨j, hj1, hj2, hj3⟩)
      · exact Or.inl h
      · exact Or.inr ⟨i, Nat.le_refl i, by omega, h⟩
      · exact Or.inr ⟨j, by omega, by omega, hj3⟩
    · rintro (h | ⟨j, hj1, hj2, hj3⟩)
      · exact Or.inl (Or.inl h)
      · by_cases hji : j = i
        · subst hji; exact Or.inl (Or.inr hj3)
        · exact Or.inr ⟨j, by omega, by omega, hj3⟩

/-- Number of words inspected by `tdb_live_fsrec`, for a 32-bit `rec_len`. -/
theorem tdb_live_fsrec_len_eq (dbh : TdbHdr) (hlen : dbh.rec_len < 2 ^ 32) :
    tdb_live_fsrec_len dbh = (dbh.rec_len + 15) / 8 := by
  unfold tdb_live_fsrec_len u64 sizeof_TdbFRec sizeof_long
  have h1 : (8 + 0 + dbh.rec_len) % 2 ^ 64 = 8 + dbh.rec_len := Nat.mod_eq_of_lt (by omega)
  rw [h1, RALIGN_eq _ (by omega)]
  omega

/-! ## Key digits -/

/-- The digit selected by `TDB_HTRIE_IDX` as a quotient and remainder. -/
theorem TDB_HTRIE_IDX_eq (k b : Nat) : TDB_HTRIE_IDX k b = k / 2 ^ b % 16 := by
  unfold TDB_HTRIE_IDX
  have e : TDB_HTRIE_KMASK = 2 ^ 4 - 1 := by decide
  rw [e, Nat.and_pow_two_sub_one_eq_mod, Nat.shiftRight_eq_div_pow]

/-- A number below `16 ^ n` is determined by its `n` lowest hexadecimal digits. -/
theorem hex_digits_inj (n : Nat) :
    ∀ a b, a < 16 ^ n → b < 16 ^ n →
      (∀ e, e < n → a / 16 ^ e % 16 = b / 16 ^ e % 16) → a = b := by
  induction n with
  | zero =>
    intro a b ha hb _
    simp at ha hb
    omega
  | succ n ih =>
    intro a b ha hb h
    have h0 := h 0 (by omega)
    simp at h0
    have hdiv : a / 16 = b / 16 := by
      apply ih
      · rw [Nat.pow_succ] at ha; omega
      · rw [Nat.pow_succ] at hb; omega
      · intro e he
        have := h (e + 1) (by omega)
        rw [Nat.pow_succ, Nat.mul_comm, ← Nat.div_div_eq_div_mul,
          ← Nat.div_div_eq_div_mul] at this
        exact this
    omega

/-- The pointer `TDB_HTRIE_BUCKET_NEXT` computes for a non-zero 32-bit `coll_next`: the
offset is the product reduced modulo `2 ^ 32`. -/
theorem TDB_HTRIE_BUCKET_NEXT_eq (h : Nat) (b : TdbBucket) (hnz : b.coll_next ≠ 0) :
    TDB_HTRIE_BUCKET_NEXT h b = (h + b.coll_next * 128 % 2 ^ 32) % 2 ^ 64 := by
  unfold TDB_HTRIE_BUCKET_NEXT TDB_PTR TDB_DI2O u64
  rw [if_pos hnz]
  rfl

/-- Below the 4 GiB boundary (`D < 2 ^ 25`) the 32-bit product in `TDB_HTRIE_BUCKET_NEXT` is
exact. -/
theorem TDB_HTRIE_BUCKET_NEXT_exact_below_4GiB (h : Nat) (b : TdbBucket)
    (hnz : b.coll_next ≠ 0) (hD : b.coll_next < 2 ^ 25) (hh : h + b.coll_next * 128 < 2 ^ 64) :
    TDB_HTRIE_BUCKET_NEXT h b = h + b.coll_next * 128 := by
  rw [TDB_HTRIE_BUCKET_NEXT_eq h b hnz]
  omega

/-! ## Alignment to cache lines and data blocks -/

/-- Value of `TDB_HTRIE_IALIGN` in a 32-bit or 64-bit unsigned type. -/
theorem IALIGN_eq (w n : Nat) (hw : w = 32 ∨ w = 64) :
    TDB_HTRIE_IALIGN w n = (n + 63) % 2 ^ w / 64 * 64 := by
  unfold TDB_HTRIE_IALIGN
  have hlt : (n + 63) % 2 ^ w < 2 ^ w := Nat.mod_lt _ (Nat.two_pow_pos w)
  have h := and_high_mask ((n + 63) % 2 ^ w) 6 w (by omega) hlt
  have hm : 2 ^ w - 1 - (L1_CACHE_BYTES - 1) = 2 ^ w - 2 ^ 6 := by
    rw [show L1_CACHE_BYTES = 64 by decide]; omega
  rw [show n + L1_CACHE_BYTES - 1 = n + 63 by rw [show L1_CACHE_BYTES = 64 by decide]; omega,
    hm, h]
  norm_num

/-- Value of `TDB_HTRIE_DALIGN` in a 32-bit or 64-bit unsigned type. -/
theorem DALIGN_eq (w n : Nat) (hw : w = 32 ∨ w = 64) :
    TDB_HTRIE_DALIGN w n = (n + 127) % 2 ^ w / 128 * 128 := by
  unfold TDB_HTRIE_DALIGN TDB_HTRIE_DMASK
  have hlt : (n + 127) % 2 ^ w < 2 ^ w := Nat.mod_lt _ (Nat.two_pow_pos w)
  have h := and_high_mask ((n + 127) % 2 ^ w) 7 w (by omega) hlt
  have hm : 2 ^ w - 1 - (TDB_HTRIE_MINDREC - 1) = 2 ^ w - 2 ^ 7 := by
    rw [show TDB_HTRIE_MINDREC = 128 by decide]; omega
  rw [show n + TDB_HTRIE_MINDREC - 1 = n + 127 by
      rw [show TDB_HTRIE_MINDREC = 128 by decide]; omega,
    hm, h]
  norm_num

/-- Setting the FREED flag of a 32-bit length. -/
theorem or_VRFREED (len : Nat) (hlen : len < 2 ^ 32) :
    len ||| TDB_HTRIE_VRFREED = len % 2 ^ 31 + 2 ^ 31 := by
  have e : TDB_HTRIE_VRFREED = TDB_HTRIE_DBIT := rfl
  rw [e]
  by_cases h : len < 2 ^ 31
  · rw [or_DBIT len h, Nat.mod_eq_of_lt h]
  · have h1 := or_DBIT (len - 2 ^ 31) (by omega)
    have h2 : len = (len - 2 ^ 31) ||| TDB_HTRIE_DBIT := by rw [h1]; omega
    rw [h2, Nat.or_assoc, Nat.or_self, h1]
    omega

/-- The recorded length is the low 31 bits of `len`. -/
theorem VRLEN_eq (r : TdbVRec) : TDB_HTRIE_VRLEN r = r.len % 2 ^ 31 := by
  unfold TDB_HTRIE_VRLEN
  rw [show not32 TDB_HTRIE_VRFREED = 2 ^ 31 - 1 by decide, Nat.and_pow_two_sub_one_eq_mod]

/-- Number of bitmap words where the sum in `TDB_EXT_BMP_2L` does not wrap. -/
theorem TDB_EXT_BMP_2L_eq (E : Nat) (h : TdbHdr) (hnw : h.dbsz / E + 63 < 2 ^ 64) :
    TDB_EXT_BMP_2L E h = (h.dbsz / E + 63) / 64 := by
  unfold TDB_EXT_BMP_2L u64
  rw [show BITS_PER_LONG = 64 by decide]
  generalize h.dbsz / E = q at hnw
  rw [show q + 64 - 1 = q + 63 by omega, Nat.mod_eq_of_lt hnw]

/-- Value of `TDB_HDR_SZ`: the additions never wrap, the word count being below `2 ^ 58`. -/
theorem TDB_HDR_SZ_eq (E : Nat) (h : TdbHdr) :
    TDB_HDR_SZ E h = 64 + 8 * TDB_EXT_BMP_2L E h := by
  have hb : TDB_EXT_BMP_2L E h < 2 ^ 58 := by
    unfold TDB_EXT_BMP_2L u64
    rw [show BITS_PER_LONG = 64 by decide]
    omega
  unfold TDB_HDR_SZ u64
  rw [show sizeof_TdbHdr = 64 by decide, show sizeof_long = 8 by decide]
  omega

/-! ## Key hashing: the loops as folds -/

/-- The pair loop, run from `i` with `k` pairs left and enough iterations allowed, feeds the
words `i, i + 2, ...` to the first CRC and `i + 1, i + 3, ...` to the second. -/
theorem hash_pair_loop_eq {σ : Type} (crcq : σ → Nat → σ) (rdq : Nat → Nat) (n : Nat) :
    ∀ fuel k i c0 c1, k ≤ fuel → n = i + 2 * k →
      hash_pair_loop crcq rdq n fuel i c0 c1 =
        ((List.range' i k 2).foldl (fun c j => crcq c (rdq j)) c0,
         (List.range' i k 2).foldl (fun c j => crcq c (rdq (j + 1))) c1) := by
  intro fuel
  induction fuel with
  | zero =>
    intro k i c0 c1 hk _
    have : k = 0 := by omega
    subst this
    rfl
  | succ fuel ih =>
    intro k i c0 c1 hk hn
    cases k with
    | zero =>
      have hni : ¬ i < n := by omega
      simp [hash_pair_loop, hni]
    | succ k =>
      have hin : i < n := by omega
      rw [hash_pair_loop, if_pos hin, ih k (i + 2) _ _ (by omega) (by omega)]
      simp [List.range'_succ]

/-- The byte loop, given enough iterations, feeds the bytes `n, n + 1, ..., len - 1`. -/
theorem hash_byte_loop_eq {σ : Type} (crcb : σ → Nat → σ) (rdb : Nat → Nat) (len : Nat) :
    ∀ fuel n c, len - n ≤ fuel →
      hash_byte_loop crcb rdb len fuel n c =
        (List.range' n (len - n)).foldl (fun c p => crcb c (rdb p)) c := by
  intro fuel
  induction fuel with
  | zero =>
    intro n c h
    have : len - n = 0 := by omega
    rw [this]
    rfl
  | succ fuel ih =>
    intro n c h
    by_cases hn : n < len
    · rw [hash_byte_loop, if_pos hn, ih (n + 1) _ (by omega)]
      have : len - n = (len - (n + 1)) + 1 := by omega
      rw [this, List.range'_succ]
      rfl
    · have : len - n = 0 := by omega
      rw [hash_byte_loop, if_neg hn, this]
      rfl

/-- The number of words taken in pairs: `(len >> 3) & ~1UL`. -/
theorem hash_pair_words_eq (len : Nat) (hlen : len < 2 ^ 64) :
    (len >>> 3) &&& not64 1 = 2 * (len / 16) := by
  rw [Nat.shiftRight_eq_div_pow, show not64 1 = 2 ^ 64 - 2 ^ 1 by decide,
    and_high_mask _ 1 64 (by decide) (by omega)]
  omega

/-- The two streams of `__tdb_hash_calc` as folds over the words and bytes they are fed. -/
theorem hash_calc_eq {σ : Type} (crcq crcb : σ → Nat → σ) (rdq rdb : Nat → Nat)
    (c0 c1 : σ) (len : Nat) (hlen : len + 8 < 2 ^ 64) :
    __tdb_hash_calc crcq crcb rdq rdb c0 c1 len =
      if 8 ≤ len % 16 then
        (crcq ((List.range' 0 (len / 16) 2).foldl (fun c j => crcq c (rdq j)) c0)
            (rdq (2 * (len / 16))),
         (List.range' (16 * (len / 16) + 8) (len - (16 * (len / 16) + 8))).foldl
            (fun c p => crcb c (rdb p))
            ((List.range' 0 (len / 16) 2).foldl (fun c j => crcq c (rdq (j + 1))) c1))
      else
        ((List.range' (16 * (len / 16)) (len - 16 * (len / 16))).foldl
            (fun c p => crcb c (rdb p))
            ((List.range' 0 (len / 16) 2).foldl (fun c j => crcq c (rdq j)) c0),
         (List.range' 0 (len / 16) 2).foldl (fun c j => crcq c (rdq (j + 1))) c1) := by
  unfold __tdb_hash_calc
  simp only []
  rw [hash_pair_words_eq len (by omega),
    hash_pair_loop_eq crcq rdq (2 * (len / 16)) (2 * (len / 16)) (len / 16) 0 c0 c1
      (by omega) (by omega)]
  have e1 : u64 ((2 * (len / 16) + 1) <<< 3) = 16 * (len / 16) + 8 := by
    unfold u64
    rw [Nat.shiftLeft_eq, Nat.mod_eq_of_lt (by omega)]
    omega
  have e2 : u64 ((2 * (len / 16)) <<< 3) = 16 * (len / 16) := by
    unfold u64
    rw [Nat.shiftLeft_eq, Nat.mod_eq_of_lt (by omega)]
    omega
  rw [e1, e2]
  by_cases hc : 8 ≤ len % 16
  · rw [if_pos (by omega), if_pos hc, hash_byte_loop_eq crcb rdb len len _ _ (by omega)]
  · rw [if_neg (by omega), if_neg hc, hash_byte_loop_eq crcb rdb len len _ _ (by omega)]

/-- Recording the operands of a fold yields the mapped list. -/
theorem foldl_record {α β : Type} (f : α → β) (l : List α) (init : List β) :
    l.foldl (fun log x => log ++ [f x]) init = init ++ l.map f := by
  induction l generalizing init with
  | nil => simp
  | cons a t ih => simp [ih]

/-- The reads of the two streams, explicitly. -/
theorem hash_calc_reads_eq (len : Nat) (hlen : len + 8 < 2 ^ 64) :
    __tdb_hash_calc_reads len =
      ((List.range' 0 (len / 16) 2).map CrcRead.word ++
          (if 8 ≤ len % 16 then [CrcRead.word (2 * (len / 16))]
           else (List.range' (16 * (len / 16)) (len - 16 * (len / 16))).map CrcRead.byte),
       (List.range' 0 (len / 16) 2).map (fun j => CrcRead.word (j + 1)) ++
          (if 8 ≤ len % 16 then
            (List.range' (16 * (len / 16) + 8) (len - (16 * (len / 16) + 8))).map CrcRead.byte
           else [])) := by
  unfold __tdb_hash_calc_reads
  rw [hash_calc_eq _ _ _ _ _ _ len hlen]
  by_cases hc : 8 ≤ len % 16
  · simp only [if_pos hc, id]
    rw [foldl_record CrcRead.word, foldl_record (fun j => CrcRead.word (j + 1)),
      foldl_record CrcRead.byte]
    simp
  · simp only [if_neg hc, id]
    rw [foldl_record CrcRead.word, foldl_record (fun j => CrcRead.word (j + 1)),
      foldl_record CrcRead.byte]
    simp

/-- The CRCs computed by `__tdb_hash_calc` are the initial CRCs fed with the reads of
their stream, in order. -/
theorem hash_calc_eq_feed {σ : Type} (crcq crcb : σ → Nat → σ) (rdq rdb : Nat → Nat)
    (c0 c1 : σ) (len : Nat) (hlen : len + 8 < 2 ^ 64) :
    __tdb_hash_calc crcq crcb rdq rdb c0 c1 len =
      (crc_feed crcq crcb rdq rdb c0 (__tdb_hash_calc_reads len).1,
       crc_feed crcq crcb rdq rdb c1 (__tdb_hash_calc_reads len).2) := by
  rw [hash_calc_eq crcq crcb rdq rdb c0 c1 len hlen, hash_calc_reads_eq len hlen]
  unfold crc_feed
  by_cases hc : 8 ≤ len % 16
  · simp only [if_pos hc, List.foldl_append, List.foldl_map, List.foldl_cons, List.foldl_nil]
  · simp only [if_neg hc, List.foldl_append, List.foldl_map, List.foldl_cons, List.foldl_nil]

/-! ## Key hashing: the byte positions read -/

/-- A position occurs in a run of consecutive positions at most once. -/
theorem count_range' (p a k : Nat) :
    (List.range' a k).count p = if a ≤ p ∧ p < a + k then 1 else 0 := by
  induction k generalizing a with
  | zero =>
    have hc : ¬ (a ≤ p ∧ p < a + 0) := by omega
    rw [if_neg hc]
    rfl
  | succ k ih =>
    rw [List.range'_succ, List.count_cons, ih (a + 1)]
    by_cases h1 : a = p
    · subst h1
      simp only [beq_self_eq_true, if_true]
      split_ifs <;> omega
    · have hbeq : (a == p) = false := by simpa using h1
      rw [hbeq]
      simp only [Bool.false_eq_true, if_false, Nat.add_zero]
      split_ifs <;> omega

/-- Byte positions covered by byte reads. -/
theorem flatMap_bytes_byte (l : List Nat) :
    (l.map CrcRead.byte).flatMap CrcRead.bytes = l := by
  induction l with
  | nil => rfl
  | cons a t ih =>
    rw [List.map_cons, List.flatMap_cons, ih]
    rfl

/-- Byte positions covered by the words the pair loop feeds to one stream (`e = 0` for
`crc0`, `e = 1` for `crc1`): pair `t` contributes the eight positions from `16 * t + 8 * e`. -/
theorem pair_bytes_succ (e m : Nat) :
    ((List.range' 0 (m + 1) 2).map (fun j => CrcRead.word (j + e))).flatMap CrcRead.bytes =
      ((List.range' 0 m 2).map (fun j => CrcRead.word (j + e))).flatMap CrcRead.bytes
        ++ List.range' (16 * m + 8 * e) 8 := by
  rw [List.range'_concat, List.map_append, List.flatMap_append]
  congr 1
  simp only [List.map_cons, List.map_nil, List.flatMap_cons, List.flatMap_nil,
    List.append_nil, CrcRead.bytes]
  congr 1
  omega

/-- Each position is covered at most once by the words of the pair loop of one stream. -/
theorem count_pair_bytes (p e m : Nat) (he : e ≤ 1) :
    (((List.range' 0 m 2).map (fun j => CrcRead.word (j + e))).flatMap CrcRead.bytes).count p
      = if p < 16 * m ∧ 8 * e ≤ p % 16 ∧ p % 16 < 8 * e + 8 then 1 else 0 := by
  induction m with
  | zero => simp
  | succ m ih =>
    rw [pair_bytes_succ, List.count_append, ih, count_range']
    split_ifs <;> omega

/-- The words of the pair loop of one stream cover increasing positions. -/
theorem pairwise_pair_bytes (e m : Nat) (he : e ≤ 1) :
    (((List.range' 0 m 2).map (fun j => CrcRead.word (j + e))).flatMap CrcRead.bytes).Pairwise
      (fun a b => a < b) := by
  induction m with
  | zero => simp
  | succ m ih =>
    rw [pair_bytes_succ, List.pairwise_append]
    refine ⟨ih, List.pairwise_lt_range' _ _, ?_⟩
    intro a ha b hb
    have hc := count_pair_bytes a e m he
    have hpos : 0 < (((List.range' 0 m 2).map
        (fun j => CrcRead.word (j + e))).flatMap CrcRead.bytes).count a :=
      List.count_pos_iff.mpr ha
    rw [hc] at hpos
    rw [List.mem_range'_1] at hb
    split_ifs at hpos <;> omega

/-- Byte positions fed to each stream, in program order. -/
theorem hash_reads_bytes_eq (len : Nat) (hlen : len + 8 < 2 ^ 64) :
    (__tdb_hash_calc_reads len).1.flatMap CrcRead.bytes =
      ((List.range' 0 (len / 16) 2).map (fun j => CrcRead.word (j + 0))).flatMap CrcRead.bytes
        ++ (if 8 ≤ len % 16 then List.range' (16 * (len / 16)) 8
            else List.range' (16 * (len / 16)) (len - 16 * (len / 16))) ∧
    (__tdb_hash_calc_reads len).2.flatMap CrcRead.bytes =
      ((List.range' 0 (len / 16) 2).map (fun j => CrcRead.word (j + 1))).flatMap CrcRead.bytes
        ++ (if 8 ≤ len % 16 then
              List.range' (16 * (len / 16) + 8) (len - (16 * (len / 16) + 8))
            else []) := by
  rw [hash_calc_reads_eq len hlen]
  simp only [List.flatMap_append, Nat.add_zero]
  have hw : [CrcRead.word (2 * (len / 16))].flatMap CrcRead.bytes
      = List.range' (16 * (len / 16)) 8 := by
    simp only [List.flatMap_cons, List.flatMap_nil, List.append_nil, CrcRead.bytes]
    congr 1
    omega
  by_cases hc : 8 ≤ len % 16
  · simp only [if_pos hc, hw, flatMap_bytes_byte]
    exact ⟨trivial, trivial⟩
  · simp only [if_neg hc, flatMap_bytes_byte, List.flatMap_nil]
    exact ⟨trivial, trivial⟩

/-- Every position below `len` is covered by exactly one read, no other position is read. -/
theorem hash_reads_count (len p : Nat) (hlen : len + 8 < 2 ^ 64) :
    (((__tdb_hash_calc_reads len).1 ++ (__tdb_hash_calc_reads len).2).flatMap
      CrcRead.bytes).count p = if p < len then 1 else 0 := by
  obtain ⟨h0, h1⟩ := hash_reads_bytes_eq len hlen
  rw [List.flatMap_append, h0, h1]
  simp only [List.count_append, count_pair_bytes p 0 (len / 16) (by omega),
    count_pair_bytes p 1 (len / 16) (by omega)]
  by_cases hc : 8 ≤ len % 16
  · simp only [if_pos hc, count_range']
    split_ifs <;> omega
  · simp only [if_neg hc, count_range', List.count_nil]
    split_ifs <;> omega

/-- The positions fed to each stream increase in program order. -/
theorem hash_reads_increasing (len : Nat) (hlen : len + 8 < 2 ^ 64) :
    ((__tdb_hash_calc_reads len).1.flatMap CrcRead.bytes).Pairwise (fun a b => a < b) ∧
    ((__tdb_hash_calc_reads len).2.flatMap CrcRead.bytes).Pairwise (fun a b => a < b) := by
  obtain ⟨h0, h1⟩ := hash_reads_bytes_eq len hlen
  have hbound : ∀ e, e ≤ 1 → ∀ a,
      a ∈ ((List.range' 0 (len / 16) 2).map
        (fun j => CrcRead.word (j + e))).flatMap CrcRead.bytes → a < 16 * (len / 16) := by
    intro e he a ha
    have hpos := List.count_pos_iff.mpr ha
    rw [count_pair_bytes a e (len / 16) he] at hpos
    split_ifs at hpos <;> omega
  rw [h0, h1, List.pairwise_append, List.pairwise_append]
  refine ⟨⟨pairwise_pair_bytes 0 _ (by omega), ?_, ?_⟩,
    ⟨pairwise_pair_bytes 1 _ (by omega), ?_, ?_⟩⟩
  · split_ifs <;> exact List.pairwise_lt_range' _ _
  · intro a ha b hb
    have := hbound 0 (by omega) a ha
    split_ifs at hb <;> rw [List.mem_range'_1] at hb <;> omega
  · split_ifs
    · exact List.pairwise_lt_range' _ _
    · exact List.Pairwise.nil
  · intro a ha b hb
    have := hbound 1 (by omega) a ha
    split_ifs at hb
    · rw [List.mem_range'_1] at hb; omega
    · simp at hb

/-- Words are read below `8 * (len / 8)`; the bytes read are exactly the tail from there. -/
theorem hash_reads_kinds (len : Nat) (hlen : len + 8 < 2 ^ 64) :
    (∀ i, CrcRead.word i ∈ (__tdb_hash_calc_reads len).1 ++ (__tdb_hash_calc_reads len).2 →
      8 * i + 8 ≤ 8 * (len / 8)) ∧
    (∀ n, CrcRead.byte n ∈ (__tdb_hash_calc_reads len).1 ++ (__tdb_hash_calc_reads len).2 ↔
      8 * (len / 8) ≤ n ∧ n < len) := by
  rw [hash_calc_reads_eq len hlen]
  constructor
  · intro i hi
    by_cases hc : 8 ≤ len % 16
    · simp only [if_pos hc, List.mem_append, List.mem_map, List.mem_range',
        List.mem_singleton] at hi
      rcases hi with (⟨a, ⟨t, ht, rfl⟩, h⟩ | h) | (⟨a, ⟨t, ht, rfl⟩, h⟩ | ⟨a, _, h⟩) <;>
        cases h <;> omega
    · simp only [if_neg hc, List.mem_append, List.mem_map, List.mem_range',
        List.not_mem_nil] at hi
      rcases hi with (⟨a, ⟨t, ht, rfl⟩, h⟩ | ⟨a, _, h⟩) | (⟨a, ⟨t, ht, rfl⟩, h⟩ | h) <;>
        cases h <;> omega
  · intro n
    by_cases hc : 8 ≤ len % 16
    · simp only [if_pos hc, List.mem_append, List.mem_map, List.mem_range',
        List.mem_singleton]
      constructor
      · rintro ((⟨a, _, h⟩ | h) | (⟨a, _, h⟩ | ⟨a, ⟨t, ht, rfl⟩, h⟩)) <;> cases h
        omega
      · intro h
        exact Or.inr (Or.inr ⟨n, ⟨n - (16 * (len / 16) + 8), by omega, by omega⟩, rfl⟩)
    · simp only [if_neg hc, List.mem_append, List.mem_map, List.mem_range',
        List.not_mem_nil]
      constructor
      · rintro ((⟨a, _, h⟩ | ⟨a, ⟨t, ht, rfl⟩, h⟩) | (⟨a, _, h⟩ | h)) <;> cases h
        omega
      · intro h
        exact Or.inl (Or.inr ⟨n, ⟨n - 16 * (len / 16), by omega, by omega⟩, rfl⟩)

/-- Feeding reads preserves a bound that every CRC step guarantees. -/
theorem crc_feed_lt (crcq crcb : Nat → Nat → Nat) (rdq rdb : Nat → Nat) (B : Nat)
    (hq : ∀ c d, crcq c d < B) (hb : ∀ c d, crcb c d < B) (reads : List CrcRead) :
    ∀ c, c < B → crc_feed crcq crcb rdq rdb c reads < B := by
  induction reads with
  | nil => intro c hc; exact hc
  | cons r t ih =>
    intro c _
    unfold crc_feed
    rw [List.foldl_cons]
    cases r with
    | word i => exact ih _ (hq _ _)
    | byte n => exact ih _ (hb _ _)

/-- Feeding reads depends on the input only through the places read. -/
theorem crc_feed_congr {σ : Type} (crcq crcb : σ → Nat → σ) (rdq rdb rdq' rdb' : Nat → Nat)
    (reads : List CrcRead)
    (hw : ∀ i, CrcRead.word i ∈ reads → rdq i = rdq' i)
    (hb : ∀ n, CrcRead.byte n ∈ reads → rdb n = rdb' n) :
    ∀ c, crc_feed crcq crcb rdq rdb c reads = crc_feed crcq crcb rdq' rdb' c reads := by
  induction reads with
  | nil => intro c; rfl
  | cons r t ih =>
    intro c
    have iht := ih (fun i hi => hw i (List.mem_cons_of_mem _ hi))
      (fun n hn => hb n (List.mem_cons_of_mem _ hn))
    unfold crc_feed at iht ⊢
    rw [List.foldl_cons, List.foldl_cons]
    cases r with
    | word i =>
      simp only []
      rw [hw i (List.mem_cons_self _ _)]
      exact iht _
    | byte n =>
      simp only []
      rw [hb n (List.mem_cons_self _ _)]
      exact iht _

/-- With 32-bit CRC steps the hash is the final `crc1` in the high and the final `crc0` in
the low 32 bits. -/
theorem tdb_hash_calc_eq_add (crcq crcb : Nat → Nat → Nat) (data : Nat → Nat) (len : Nat)
    (hq : ∀ c d, crcq c d < 2 ^ 32) (hb : ∀ c d, crcb c d < 2 ^ 32)
    (hlen : len + 8 < 2 ^ 64) :
    (__tdb_hash_calc crcq crcb (fun i => load64 data (8 * i)) data 0 0 len).1 < 2 ^ 32 ∧
    (__tdb_hash_calc crcq crcb (fun i => load64 data (8 * i)) data 0 0 len).2 < 2 ^ 32 ∧
    tdb_hash_calc crcq crcb data len =
      2 ^ 32 * (__tdb_hash_calc crcq crcb (fun i => load64 data (8 * i)) data 0 0 len).2
        + (__tdb_hash_calc crcq crcb (fun i => load64 data (8 * i)) data 0 0 len).1 := by
  have hfeed := hash_calc_eq_feed crcq crcb (fun i => load64 data (8 * i)) data 0 0 len hlen
  have h1 : (__tdb_hash_calc crcq crcb (fun i => load64 data (8 * i)) data 0 0 len).1
      < 2 ^ 32 := by
    rw [hfeed]; exact crc_feed_lt crcq crcb _ _ _ hq hb _ 0 (by decide)
  have h2 : (__tdb_hash_calc crcq crcb (fun i => load64 data (8 * i)) data 0 0 len).2
      < 2 ^ 32 := by
    rw [hfeed]; exact crc_feed_lt crcq crcb _ _ _ hq hb _ 0 (by decide)
  refine ⟨h1, h2, ?_⟩
  unfold tdb_hash_calc u64
  simp only []
  rw [Nat.shiftLeft_eq, Nat.mod_eq_of_lt (by omega), Nat.mul_comm,
    ← Nat.mul_add_lt_is_or h1]

/-- A word is non-zero as soon as one of its bytes is. -/
theorem load64_ne_zero (bytes : Nat → Nat) (off c : Nat) (hc : c < 8)
    (hne : bytes (off + c) ≠ 0) : load64 bytes off ≠ 0 := by
  unfold load64
  have h0 : bytes (off + 0) = bytes off := rfl
  interval_cases c <;> omega

/-- A word depends only on its eight bytes. -/
theorem load64_congr (b1 b2 : Nat → Nat) (off : Nat)
    (h : ∀ c, c < 8 → b1 (off + c) = b2 (off + c)) : load64 b1 off = load64 b2 off := by
  unfold load64
  have h0 := h 0 (by omega)
  rw [Nat.add_zero] at h0
  rw [h0, h 1 (by omega), h 2 (by omega), h 3 (by omega), h 4 (by omega), h 5 (by omega),
    h 6 (by omega), h 7 (by omega)]

/-- The value of `tdb_live_fsrec` is 0 or 1 and is non-zero exactly when an inspected word
is. -/
theorem tdb_live_fsrec_spec (dbh : TdbHdr) (rec : TdbFRec) :
    tdb_live_fsrec dbh rec ≤ 1 ∧
    (tdb_live_fsrec dbh rec ≠ 0 ↔ ∃ i, i < tdb_live_fsrec_len dbh ∧ rec.word i ≠ 0) := by
  obtain ⟨h1, h2⟩ := tdb_live_fsrec_loop_spec rec (tdb_live_fsrec_len dbh) 0 0 (by omega)
  refine ⟨h1, ?_⟩
  unfold tdb_live_fsrec
  rw [h2]
  constructor
  · rintro (h | ⟨j, _, hj2, hj3⟩)
    · exact absurd rfl h
    · exact ⟨j, by omega, hj3⟩
  · rintro ⟨j, hj1, hj2⟩
    exact Or.inr ⟨j, Nat.zero_le j, by omega, hj2⟩

/-! ## Claims -/

/-- C1: for a header with a 32-bit `rec_len` (zero or not), `tdb_live_fsrec` returns non-zero
exactly when one of the `TDB_HTRIE_RALIGN(8 + rec_len) / 8` eight-byte words of the record,
counted from the key, is non-zero.  The record with key 0 and all-zero bytes is not live, every
record with a non-zero key is live, and the word count stays below `2 ^ 31`, so the `int`
loop counter never overflows. -/
theorem tdb_live_fsrec_iff_word_nonzero (dbh : TdbHdr) (rec : TdbFRec)
    (hlen : dbh.rec_len < 2 ^ 32) :
    (tdb_live_fsrec dbh rec ≠ 0 ↔
      ∃ i, i < TDB_HTRIE_RALIGN (8 + dbh.rec_len) / 8 ∧ rec.word i ≠ 0) ∧
    (rec.key = 0 → (∀ j, rec.data j = 0) → tdb_live_fsrec dbh rec = 0) ∧
    (rec.key ≠ 0 → tdb_live_fsrec dbh rec ≠ 0) ∧
    TDB_HTRIE_RALIGN (8 + dbh.rec_len) / 8 < 2 ^ 31 := by
  have hspec := (tdb_live_fsrec_loop_spec rec (tdb_live_fsrec_len dbh) 0 0 (by omega)).2
  have hlen8 : TDB_HTRIE_RALIGN (8 + dbh.rec_len) / 8 = tdb_live_fsrec_len dbh := by
    unfold tdb_live_fsrec_len u64 sizeof_TdbFRec sizeof_long
    rw [Nat.add_zero, Nat.mod_eq_of_lt (by omega)]
  have hpos : 0 < tdb_live_fsrec_len dbh := by
    rw [tdb_live_fsrec_len_eq dbh hlen]; omega
  have hiff : tdb_live_fsrec dbh rec ≠ 0 ↔
      ∃ i, i < tdb_live_fsrec_len dbh ∧ rec.word i ≠ 0 := by
    unfold tdb_live_fsrec
    rw [hspec]
    constructor
    · rintro (h | ⟨j, _, hj2, hj3⟩)
      · exact absurd rfl h
      · exact ⟨j, by omega, hj3⟩
    · rintro ⟨j, hj1, hj2⟩
      exact Or.inr ⟨j, Nat.zero_le j, by omega, hj2⟩
  rw [hlen8]
  refine ⟨hiff, ?_, ?_, ?_⟩
  · intro hkey hdata
    by_contra hne
    obtain ⟨i, _, hi⟩ := hiff.mp hne
    apply hi
    unfold TdbFRec.word load64
    split
    · exact hkey
    · simp [hdata]
  · intro hkey
    exact hiff.mpr ⟨0, hpos, by simpa [TdbFRec.word] using hkey⟩
  · rw [tdb_live_fsrec_len_eq dbh hlen]; omega

/-- Witness of C1: a record of 5 data bytes with a non-zero key. -/
theorem tdb_live_fsrec_iff_word_nonzero_witness :
    (5 : Nat) < 2 ^ 32 ∧
    ((tdb_live_fsrec ⟨0, 0, 0, 0, 5⟩ ⟨7, fun _ => 0⟩ ≠ 0 ↔
      ∃ i, i < TDB_HTRIE_RALIGN (8 + 5) / 8 ∧ (TdbFRec.mk 7 (fun _ => 0)).word i ≠ 0) ∧
    ((7 : Nat) = 0 → (∀ j : Nat, (fun _ => 0 : Nat → Nat) j = 0) →
      tdb_live_fsrec ⟨0, 0, 0, 0, 5⟩ ⟨7, fun _ => 0⟩ = 0) ∧
    ((7 : Nat) ≠ 0 → tdb_live_fsrec ⟨0, 0, 0, 0, 5⟩ ⟨7, fun _ => 0⟩ ≠ 0) ∧
    TDB_HTRIE_RALIGN (8 + 5) / 8 < 2 ^ 31) :=
  ⟨by decide, tdb_live_fsrec_iff_word_nonzero ⟨0, 0, 0, 0, 5⟩ ⟨7, fun _ => 0⟩ (by decide)⟩

/-- C2: for a chunk with a 32-bit `len`, `tdb_live_vsrec` is true exactly when `len` is
non-zero and its FREED flag `TDB_HTRIE_VRFREED` (the high bit, `2 ^ 31`) is clear, which is
the same as `0 < len < 2 ^ 31`. -/
theorem tdb_live_vsrec_iff (rec : TdbVRec) (hlen : rec.len < 2 ^ 32) :
    TDB_HTRIE_VRFREED = 2 ^ 31 ∧
    (tdb_live_vsrec rec ≠ 0 ↔ rec.len ≠ 0 ∧ rec.len &&& TDB_HTRIE_VRFREED = 0) ∧
    (rec.len &&& TDB_HTRIE_VRFREED = 0 ↔ rec.len.testBit 31 = false) ∧
    (tdb_live_vsrec rec ≠ 0 ↔ 0 < rec.len ∧ rec.len < 2 ^ 31) := by
  have hand : rec.len &&& TDB_HTRIE_VRFREED = rec.len / 2 ^ 31 * 2 ^ 31 := and_DBIT rec.len hlen
  have hdef : tdb_live_vsrec rec ≠ 0 ↔ rec.len ≠ 0 ∧ rec.len &&& TDB_HTRIE_VRFREED = 0 := by
    unfold tdb_live_vsrec
    split
    · rename_i h
      simpa using h
    · rename_i h
      simpa using h
  refine ⟨by decide, hdef, ?_, ?_⟩
  · rw [hand, Nat.testBit_to_div_mod]
    have : rec.len / 2 ^ 31 < 2 := by omega
    simp only [decide_eq_false_iff_not]
    omega
  · rw [hdef, hand]
    omega

/-- Witness of C2: a live chunk of 32 bytes. -/
theorem tdb_live_vsrec_iff_witness :
    (32 : Nat) < 2 ^ 32 ∧
    (TDB_HTRIE_VRFREED = 2 ^ 31 ∧
    (tdb_live_vsrec ⟨1, 0, 32, fun _ => 0⟩ ≠ 0 ↔ (32 : Nat) ≠ 0 ∧ 32 &&& TDB_HTRIE_VRFREED = 0) ∧
    (32 &&& TDB_HTRIE_VRFREED = 0 ↔ (32 : Nat).testBit 31 = false) ∧
    (tdb_live_vsrec ⟨1, 0, 32, fun _ => 0⟩ ≠ 0 ↔ 0 < 32 ∧ 32 < 2 ^ 31)) :=
  ⟨by decide, tdb_live_vsrec_iff ⟨1, 0, 32, fun _ => 0⟩ (by decide)⟩

/-- C3: a 32-bit slot value `v` is of exactly one of three kinds: empty (`v = 0`), index
reference (bit 31 clear, `v ≠ 0`) or data reference (bit 31 set); its payload `v & OMASK` has
31 bits and, with the kind, determines `v`.  Encoding round-trips: for a 31-bit `D`,
`(D | DBIT) & OMASK = D` and `(D | DBIT) & DBIT ≠ 0`; for a 31-bit `I`, `I & DBIT = 0` and
`I & OMASK = I`. -/
theorem slot_decode_roundtrip (v D I : Nat) (hv : v < 2 ^ 32) (hD : D < 2 ^ 31)
    (hI : I < 2 ^ 31) :
    (v = 0 ∨ (v &&& TDB_HTRIE_DBIT = 0 ∧ v ≠ 0) ∨ v &&& TDB_HTRIE_DBIT ≠ 0) ∧
    ¬ (v = 0 ∧ (v &&& TDB_HTRIE_DBIT = 0 ∧ v ≠ 0)) ∧
    ¬ (v = 0 ∧ v &&& TDB_HTRIE_DBIT ≠ 0) ∧
    ¬ ((v &&& TDB_HTRIE_DBIT = 0 ∧ v ≠ 0) ∧ v &&& TDB_HTRIE_DBIT ≠ 0) ∧
    v &&& TDB_HTRIE_OMASK < 2 ^ 31 ∧
    (v &&& TDB_HTRIE_DBIT = 0 → v &&& TDB_HTRIE_OMASK = v) ∧
    (v &&& TDB_HTRIE_DBIT ≠ 0 → (v &&& TDB_HTRIE_OMASK) ||| TDB_HTRIE_DBIT = v) ∧
    (D ||| TDB_HTRIE_DBIT) &&& TDB_HTRIE_OMASK = D ∧
    (D ||| TDB_HTRIE_DBIT) &&& TDB_HTRIE_DBIT ≠ 0 ∧
    D ||| TDB_HTRIE_DBIT < 2 ^ 32 ∧
    I &&& TDB_HTRIE_DBIT = 0 ∧
    I &&& TDB_HTRIE_OMASK = I := by
  have hvD := and_DBIT v hv
  have hvO := and_OMASK v
  have hDor := or_DBIT D hD
  have hDD := and_DBIT (D + 2 ^ 31) (by omega)
  have hDO := and_OMASK (D + 2 ^ 31)
  have hID := and_DBIT I (by omega)
  have hIO := and_OMASK I
  have hpay := or_DBIT (v % 2 ^ 31) (Nat.mod_lt _ (by decide))
  rw [hDor, hvD, hvO, hDD, hDO, hID, hIO, hpay]
  refine ⟨?_, ?_, ?_, ?_, ?_, ?_, ?_, ?_, ?_, ?_, ?_, ?_⟩ <;> omega

/-- Witness of C3: the slot value `0x80000005` is the data reference 5. -/
theorem slot_decode_roundtrip_witness :
    (0x80000005 : Nat) < 2 ^ 32 ∧ (5 : Nat) < 2 ^ 31 ∧ (9 : Nat) < 2 ^ 31 ∧
    ((0x80000005 = 0 ∨ (0x80000005 &&& TDB_HTRIE_DBIT = 0 ∧ 0x80000005 ≠ 0) ∨
      0x80000005 &&& TDB_HTRIE_DBIT ≠ 0) ∧
    ¬ (0x80000005 = 0 ∧ (0x80000005 &&& TDB_HTRIE_DBIT = 0 ∧ 0x80000005 ≠ 0)) ∧
    ¬ (0x80000005 = 0 ∧ 0x80000005 &&& TDB_HTRIE_DBIT ≠ 0) ∧
    ¬ ((0x80000005 &&& TDB_HTRIE_DBIT = 0 ∧ 0x80000005 ≠ 0) ∧
      0x80000005 &&& TDB_HTRIE_DBIT ≠ 0) ∧
    0x80000005 &&& TDB_HTRIE_OMASK < 2 ^ 31 ∧
    (0x80000005 &&& TDB_HTRIE_DBIT = 0 → 0x80000005 &&& TDB_HTRIE_OMASK = 0x80000005) ∧
    (0x80000005 &&& TDB_HTRIE_DBIT ≠ 0 →
      (0x80000005 &&& TDB_HTRIE_OMASK) ||| TDB_HTRIE_DBIT = 0x80000005) ∧
    (5 ||| TDB_HTRIE_DBIT) &&& TDB_HTRIE_OMASK = 5 ∧
    (5 ||| TDB_HTRIE_DBIT) &&& TDB_HTRIE_DBIT ≠ 0 ∧
    5 ||| TDB_HTRIE_DBIT < 2 ^ 32 ∧
    9 &&& TDB_HTRIE_DBIT = 0 ∧
    9 &&& TDB_HTRIE_OMASK = 9) :=
  ⟨by decide, by decide, by decide,
    slot_decode_roundtrip 0x80000005 5 9 (by decide) (by decide) (by decide)⟩

/-- C4 (evaluation at a failing input): for the 31-bit MDR index `D = 2 ^ 25`, whose block
lies at byte offset `D * 128 = 4 GiB`, inside a table of at most `TDB_MAX_DB_SZ` bytes,
`TDB_HTRIE_BUCKET_NEXT` multiplies in `unsigned int`, the product wraps to 0 and the result
is the header address itself instead of the address `D * 128` bytes after it. -/
theorem TDB_HTRIE_BUCKET_NEXT_wraps_at_4GiB :
    (2 ^ 25 : Nat) ≠ 0 ∧ (2 ^ 25 : Nat) < 2 ^ 31 ∧ 2 ^ 25 * 128 < TDB_MAX_DB_SZ ∧
    TDB_DI2O 32 (2 ^ 25) = 0 ∧
    TDB_HTRIE_BUCKET_NEXT 0x7f0000000000 ⟨2 ^ 25, 0, 0⟩ = 0x7f0000000000 ∧
    TDB_HTRIE_BUCKET_NEXT 0x7f0000000000 ⟨2 ^ 25, 0, 0⟩ ≠ 0x7f0000000000 + 2 ^ 25 * 128 ∧
    TDB_HTRIE_BUCKET_NEXT 0x7f0000000000 ⟨0, 0, 0⟩ = NULL := by
  decide

/-- C5: for a 64-bit key `k` and a depth `d < 16`, `TDB_HTRIE_IDX(k, 4 * d)` is the value of
bits `[4d, 4d + 4)` of `k`, is below `TDB_HTRIE_FANOUT = 16`, and so selects one of the 16
four-byte slots of a `TDB_HTRIE_NODE_SZ = 64` byte node; two 64-bit keys are equal exactly
when `TDB_HTRIE_IDX` agrees on them at every depth `0..15`. -/
theorem TDB_HTRIE_IDX_digit (k k' d : Nat) (hk : k < 2 ^ 64) (hk' : k' < 2 ^ 64)
    (hd : d < 16) :
    4 * d + TDB_HTRIE_BITS ≤ BITS_PER_LONG ∧
    TDB_HTRIE_IDX k (4 * d) = k / 2 ^ (4 * d) % 2 ^ 4 ∧
    (∀ j, j < 4 → (TDB_HTRIE_IDX k (4 * d)).testBit j = k.testBit (4 * d + j)) ∧
    TDB_HTRIE_IDX k (4 * d) < TDB_HTRIE_FANOUT ∧
    TDB_HTRIE_FANOUT = 16 ∧
    TDB_HTRIE_FANOUT * sizeof_int = TDB_HTRIE_NODE_SZ ∧
    TDB_HTRIE_IDX k (4 * d) * sizeof_int + sizeof_int ≤ TDB_HTRIE_NODE_SZ ∧
    (k = k' ↔ ∀ e, e < 16 → TDB_HTRIE_IDX k (4 * e) = TDB_HTRIE_IDX k' (4 * e)) := by
  have hidx := TDB_HTRIE_IDX_eq k (4 * d)
  have hlt : TDB_HTRIE_IDX k (4 * d) < 16 := by rw [hidx]; omega
  have hin : 4 * d + TDB_HTRIE_BITS ≤ BITS_PER_LONG := by
    rw [show TDB_HTRIE_BITS = 4 by decide, show BITS_PER_LONG = 64 by decide]; omega
  refine ⟨hin, by rw [hidx]; norm_num, ?_, by rw [show TDB_HTRIE_FANOUT = 16 by decide]; exact hlt,
    by decide, by decide, ?_, ?_⟩
  · intro j hj
    unfold TDB_HTRIE_IDX
    rw [show TDB_HTRIE_KMASK = 2 ^ 4 - 1 by decide, Nat.testBit_and, Nat.testBit_shiftRight,
      Nat.testBit_two_pow_sub_one]
    simp [hj]
  · rw [show sizeof_int = 4 by decide, show TDB_HTRIE_NODE_SZ = 64 by decide]
    omega
  · constructor
    · intro h e _
      rw [h]
    · intro h
      apply hex_digits_inj 16 k k' (by norm_num; exact hk) (by norm_num; exact hk')
      intro e he
      have := h e he
      rw [TDB_HTRIE_IDX_eq, TDB_HTRIE_IDX_eq, Nat.pow_mul] at this
      simpa using this

/-- Witness of C5: the second digit of `0x0123456789ABCDEF`. -/
theorem TDB_HTRIE_IDX_digit_witness :
    (0x0123456789ABCDEF : Nat) < 2 ^ 64 ∧ (0x0123456789ABCDE0 : Nat) < 2 ^ 64 ∧
    (1 : Nat) < 16 ∧
    (4 * 1 + TDB_HTRIE_BITS ≤ BITS_PER_LONG ∧
    TDB_HTRIE_IDX 0x0123456789ABCDEF (4 * 1) = 0x0123456789ABCDEF / 2 ^ (4 * 1) % 2 ^ 4 ∧
    (∀ j, j < 4 → (TDB_HTRIE_IDX 0x0123456789ABCDEF (4 * 1)).testBit j
      = (0x0123456789ABCDEF : Nat).testBit (4 * 1 + j)) ∧
    TDB_HTRIE_IDX 0x0123456789ABCDEF (4 * 1) < TDB_HTRIE_FANOUT ∧
    TDB_HTRIE_FANOUT = 16 ∧
    TDB_HTRIE_FANOUT * sizeof_int = TDB_HTRIE_NODE_SZ ∧
    TDB_HTRIE_IDX 0x0123456789ABCDEF (4 * 1) * sizeof_int + sizeof_int ≤ TDB_HTRIE_NODE_SZ ∧
    ((0x0123456789ABCDEF : Nat) = 0x0123456789ABCDE0 ↔
      ∀ e, e < 16 → TDB_HTRIE_IDX 0x0123456789ABCDEF (4 * e)
        = TDB_HTRIE_IDX 0x0123456789ABCDE0 (4 * e))) :=
  ⟨by decide, by decide, by decide,
    TDB_HTRIE_IDX_digit 0x0123456789ABCDEF 0x0123456789ABCDE0 1 (by decide) (by decide)
      (by decide)⟩

/-- C6: with `b = 4 * d` key bits consumed (an `int`, the sum `b + 4` within its range),
`TDB_HTRIE_RESOLVED(b)` holds exactly when `d * 4 + 4 > 64`: it is false at every depth
`0..15`, `b = 60` included, and true from depth 16 on. -/
theorem TDB_HTRIE_RESOLVED_iff (d : Nat) (hd : 4 * d + 4 < 2 ^ 31) :
    (TDB_HTRIE_RESOLVED ((4 * d : Nat) : Int) = true ↔ d * 4 + 4 > 64) ∧
    (d ≤ 15 → TDB_HTRIE_RESOLVED ((4 * d : Nat) : Int) = false) ∧
    (16 ≤ d → TDB_HTRIE_RESOLVED ((4 * d : Nat) : Int) = true) ∧
    TDB_HTRIE_RESOLVED 60 = false ∧
    TDB_HTRIE_RESOLVED 64 = true := by
  have key : TDB_HTRIE_RESOLVED ((4 * d : Nat) : Int) = true ↔ d * 4 + 4 > 64 := by
    unfold TDB_HTRIE_RESOLVED
    rw [decide_eq_true_iff, show TDB_HTRIE_BITS = 4 by decide,
      show BITS_PER_LONG = 64 by decide]
    push_cast
    omega
  refine ⟨key, ?_, ?_, by decide, by decide⟩
  · intro h
    rw [Bool.eq_false_iff]
    intro ht
    have := key.mp ht
    omega
  · intro h
    exact key.mpr (by omega)

/-- Witness of C6: depth 16, all 64 bits consumed. -/
theorem TDB_HTRIE_RESOLVED_iff_witness :
    4 * 16 + 4 < 2 ^ 31 ∧
    ((TDB_HTRIE_RESOLVED ((4 * 16 : Nat) : Int) = true ↔ 16 * 4 + 4 > 64) ∧
    (16 ≤ 15 → TDB_HTRIE_RESOLVED ((4 * 16 : Nat) : Int) = false) ∧
    (16 ≤ 16 → TDB_HTRIE_RESOLVED ((4 * 16 : Nat) : Int) = true) ∧
    TDB_HTRIE_RESOLVED 60 = false ∧
    TDB_HTRIE_RESOLVED 64 = true) :=
  ⟨by decide, TDB_HTRIE_RESOLVED_iff 16 (by decide)⟩

/-- C7: the packed header `TdbHdr` has `magic` at byte offset 0, `dbsz` at 8, `nwb` at 16,
`pcpu` at 24, `rec_len` at 32, 28 bytes of padding at 36 and `ext_bmp` at 64; its size is 64,
one cache line, and `TDB_HDR_SZ(h) = 64 + 8 * TDB_EXT_BMP_2L(h)` for every extent size. -/
theorem TdbHdr_layout (TDB_EXT_SZ : Nat) (h : TdbHdr) :
    offsetof_TdbHdr .magic = 0 ∧
    offsetof_TdbHdr .dbsz = 8 ∧
    offsetof_TdbHdr .nwb = 16 ∧
    offsetof_TdbHdr .pcpu = 24 ∧
    offsetof_TdbHdr .rec_len = 32 ∧
    offsetof_TdbHdr ._padding = 36 ∧
    TdbHdr_fieldSize ._padding = 28 ∧
    offsetof_TdbHdr .ext_bmp = 64 ∧
    sizeof_TdbHdr = 64 ∧
    sizeof_TdbHdr = L1_CACHE_BYTES ∧
    TDB_HDR_SZ TDB_EXT_SZ h = 64 + 8 * TDB_EXT_BMP_2L TDB_EXT_SZ h := by
  refine ⟨by decide, by decide, by decide, by decide, by decide, by decide, by decide,
    by decide, by decide, by decide, ?_⟩
  have hb : TDB_EXT_BMP_2L TDB_EXT_SZ h < 2 ^ 58 := by
    unfold TDB_EXT_BMP_2L u64
    rw [show BITS_PER_LONG = 64 by decide]
    omega
  unfold TDB_HDR_SZ u64
  rw [show sizeof_TdbHdr = 64 by decide, show sizeof_long = 8 by decide]
  omega

/-- The result of `TDB_HTRIE_RALIGN` is a multiple of 8 for every argument. -/
theorem RALIGN_mod_eight (n : Nat) : TDB_HTRIE_RALIGN n % 8 = 0 := by
  unfold TDB_HTRIE_RALIGN
  rw [and_not64_seven _ (by unfold u64; omega)]
  omega

/-- C8: `TDB_HTRIE_RECLEN` is `RALIGN(8 + rec_len)` for a fixed record and
`RALIGN(16 + TDB_HTRIE_VRLEN(r))` for a variable record; for `n < 2 ^ 64 - 7`,
`TDB_HTRIE_RALIGN(n)` is the least multiple of 8 that is at least `n`; and records laid end
to end from an 8-byte-aligned offset each start at an 8-byte-aligned offset. -/
theorem TDB_HTRIE_RECLEN_align8 (h : TdbHdr) (f : TdbFRec) (r : TdbVRec) (n start : Nat)
    (fs : List TdbFRec) (rs : List TdbVRec)
    (hn : n < 2 ^ 64 - 7) (hstart : start % 8 = 0) :
    TDB_HTRIE_RECLEN_FRec h f = TDB_HTRIE_RALIGN (8 + h.rec_len) ∧
    TDB_HTRIE_RECLEN_VRec h r = TDB_HTRIE_RALIGN (16 + TDB_HTRIE_VRLEN r) ∧
    (TDB_HTRIE_RALIGN n % 8 = 0 ∧ n ≤ TDB_HTRIE_RALIGN n ∧
      ∀ m, m % 8 = 0 → n ≤ m → TDB_HTRIE_RALIGN n ≤ m) ∧
    (start + ((fs.map (TDB_HTRIE_RECLEN_FRec h)).sum)) % 8 = 0 ∧
    (start + ((rs.map (TDB_HTRIE_RECLEN_VRec h)).sum)) % 8 = 0 := by
  have hmod : ∀ x, TDB_HTRIE_RALIGN (u64 x) = TDB_HTRIE_RALIGN x := by
    intro x
    unfold TDB_HTRIE_RALIGN u64
    rw [Nat.mod_mod]
  have hsum : ∀ (l : List Nat), (∀ x ∈ l, x % 8 = 0) → l.sum % 8 = 0 := by
    intro l
    induction l with
    | nil => intro _; rfl
    | cons a t ih =>
      intro hl
      have ha := hl a (List.mem_cons_self a t)
      have ht := ih (fun x hx => hl x (List.mem_cons_of_mem a hx))
      rw [List.sum_cons]
      omega
  refine ⟨?_, ?_, ⟨RALIGN_mod_eight n, ?_, ?_⟩, ?_, ?_⟩
  · unfold TDB_HTRIE_RECLEN_FRec
    rw [hmod, show sizeof_TdbFRec = 8 by decide]
  · unfold TDB_HTRIE_RECLEN_VRec
    rw [hmod, show sizeof_TdbVRec = 16 by decide]
  · rw [RALIGN_eq n hn]; omega
  · intro m hm hnm
    rw [RALIGN_eq n hn]; omega
  · have : ((fs.map (TDB_HTRIE_RECLEN_FRec h)).sum) % 8 = 0 := by
      apply hsum
      intro x hx
      obtain ⟨a, _, rfl⟩ := List.mem_map.mp hx
      exact RALIGN_mod_eight _
    omega
  · have : ((rs.map (TDB_HTRIE_RECLEN_VRec h)).sum) % 8 = 0 := by
      apply hsum
      intro x hx
      obtain ⟨a, _, rfl⟩ := List.mem_map.mp hx
      exact RALIGN_mod_eight _
    omega

/-- Witness of C8: 13-byte fixed records and a 5-byte chunk behind a 16-byte bucket header. -/
theorem TDB_HTRIE_RECLEN_align8_witness :
    (21 : Nat) < 2 ^ 64 - 7 ∧ (16 : Nat) % 8 = 0 ∧
    (TDB_HTRIE_RECLEN_FRec ⟨0, 0, 0, 0, 13⟩ ⟨1, fun _ => 0⟩ = TDB_HTRIE_RALIGN (8 + 13) ∧
    TDB_HTRIE_RECLEN_VRec ⟨0, 0, 0, 0, 13⟩ ⟨1, 0, 5, fun _ => 0⟩
      = TDB_HTRIE_RALIGN (16 + TDB_HTRIE_VRLEN ⟨1, 0, 5, fun _ => 0⟩) ∧
    (TDB_HTRIE_RALIGN 21 % 8 = 0 ∧ 21 ≤ TDB_HTRIE_RALIGN 21 ∧
      ∀ m, m % 8 = 0 → 21 ≤ m → TDB_HTRIE_RALIGN 21 ≤ m) ∧
    (16 + (([⟨1, fun _ => 0⟩, ⟨2, fun _ => 0⟩].map
      (TDB_HTRIE_RECLEN_FRec ⟨0, 0, 0, 0, 13⟩)).sum)) % 8 = 0 ∧
    (16 + (([⟨1, 0, 5, fun _ => 0⟩].map
      (TDB_HTRIE_RECLEN_VRec ⟨0, 0, 0, 0, 13⟩)).sum)) % 8 = 0) :=
  ⟨by decide, by decide,
    TDB_HTRIE_RECLEN_align8 ⟨0, 0, 0, 0, 13⟩ ⟨1, fun _ => 0⟩ ⟨1, 0, 5, fun _ => 0⟩ 21 16
      [⟨1, fun _ => 0⟩, ⟨2, fun _ => 0⟩] [⟨1, 0, 5, fun _ => 0⟩] (by decide) (by decide)⟩

/-- C9: `TDB_MAX_DB_SZ` is `2 ^ 31 * 64` bytes, 128 GiB, and for every byte offset
`o < TDB_MAX_DB_SZ` both `TDB_O2II(o)` and `TDB_O2DI(o)` are at most `TDB_HTRIE_OMASK`, so
neither has the `TDB_HTRIE_DBIT` bit set. -/
theorem TDB_MAX_DB_SZ_addressable (o : Nat) (ho : o < TDB_MAX_DB_SZ) :
    TDB_MAX_DB_SZ = 2 ^ 31 * 64 ∧
    TDB_MAX_DB_SZ = 128 * 2 ^ 30 ∧
    TDB_O2II o ≤ TDB_HTRIE_OMASK ∧
    TDB_O2DI o ≤ TDB_HTRIE_OMASK ∧
    TDB_O2II o &&& TDB_HTRIE_DBIT = 0 ∧
    TDB_O2DI o &&& TDB_HTRIE_DBIT = 0 := by
  have hmax : TDB_MAX_DB_SZ = 2 ^ 31 * 64 := by decide
  rw [hmax] at ho
  have hii : TDB_O2II o < 2 ^ 31 := by
    unfold TDB_O2II
    rw [show TDB_HTRIE_NODE_SZ = 64 by decide]
    omega
  have hdi : TDB_O2DI o < 2 ^ 31 := by
    unfold TDB_O2DI
    rw [show TDB_HTRIE_MINDREC = 128 by decide]
    omega
  have hom : TDB_HTRIE_OMASK = 2 ^ 31 - 1 := by decide
  refine ⟨hmax, by decide, by rw [hom]; omega, by rw [hom]; omega, ?_, ?_⟩
  · rw [and_DBIT _ (by omega)]; omega
  · rw [and_DBIT _ (by omega)]; omega

/-- Witness of C9: the last byte of a table of the largest size. -/
theorem TDB_MAX_DB_SZ_addressable_witness :
    2 ^ 37 - 1 < TDB_MAX_DB_SZ ∧
    (TDB_MAX_DB_SZ = 2 ^ 31 * 64 ∧
    TDB_MAX_DB_SZ = 128 * 2 ^ 30 ∧
    TDB_O2II (2 ^ 37 - 1) ≤ TDB_HTRIE_OMASK ∧
    TDB_O2DI (2 ^ 37 - 1) ≤ TDB_HTRIE_OMASK ∧
    TDB_O2II (2 ^ 37 - 1) &&& TDB_HTRIE_DBIT = 0 ∧
    TDB_O2DI (2 ^ 37 - 1) &&& TDB_HTRIE_DBIT = 0) :=
  ⟨by decide, TDB_MAX_DB_SZ_addressable (2 ^ 37 - 1) (by decide)⟩

/-- C10: `tdb_live_rec` is `tdb_live_vsrec` on the record viewed as a `TdbVRec` when
`rec_len = 0` and `tdb_live_fsrec` when `rec_len ≠ 0`; `TDB_HTRIE_RBODYLEN` is `rec_len`
when `rec_len ≠ 0` and the `TDB_HTRIE_VRLEN` of the chunk otherwise. -/
theorem tdb_live_rec_dispatch (dbh : TdbHdr) (r : TdbFRec) :
    (TDB_HTRIE_VARLENRECS dbh = true ↔ dbh.rec_len = 0) ∧
    (dbh.rec_len = 0 →
      tdb_live_rec dbh r = tdb_live_vsrec r.toVRec ∧
      TDB_HTRIE_RBODYLEN dbh r = TDB_HTRIE_VRLEN r.toVRec) ∧
    (dbh.rec_len ≠ 0 →
      tdb_live_rec dbh r = tdb_live_fsrec dbh r ∧
      TDB_HTRIE_RBODYLEN dbh r = dbh.rec_len) := by
  have hv : TDB_HTRIE_VARLENRECS dbh = true ↔ dbh.rec_len = 0 := by
    unfold TDB_HTRIE_VARLENRECS
    exact beq_iff_eq
  refine ⟨hv, ?_, ?_⟩
  · intro h0
    unfold tdb_live_rec TDB_HTRIE_RBODYLEN
    rw [if_pos (hv.mpr h0), if_neg (by simp [h0])]
    exact ⟨rfl, rfl⟩
  · intro hne
    unfold tdb_live_rec TDB_HTRIE_RBODYLEN
    rw [if_neg (fun ht => hne (hv.mp ht)), if_pos hne]
    exact ⟨rfl, rfl⟩

/-- Witness of C10: the same bytes under a variable-length and a fixed-length header. -/
theorem tdb_live_rec_dispatch_witness :
    ((0 : Nat) = 0 ∧
      tdb_live_rec ⟨0, 0, 0, 0, 0⟩ ⟨0, fun i => if i = 4 then 9 else 0⟩
        = tdb_live_vsrec (TdbFRec.mk 0 (fun i => if i = 4 then 9 else 0)).toVRec ∧
      TDB_HTRIE_RBODYLEN ⟨0, 0, 0, 0, 0⟩ ⟨0, fun i => if i = 4 then 9 else 0⟩
        = TDB_HTRIE_VRLEN (TdbFRec.mk 0 (fun i => if i = 4 then 9 else 0)).toVRec) ∧
    ((16 : Nat) ≠ 0 ∧
      tdb_live_rec ⟨0, 0, 0, 0, 16⟩ ⟨0, fun i => if i = 4 then 9 else 0⟩
        = tdb_live_fsrec ⟨0, 0, 0, 0, 16⟩ ⟨0, fun i => if i = 4 then 9 else 0⟩ ∧
      TDB_HTRIE_RBODYLEN ⟨0, 0, 0, 0, 16⟩ ⟨0, fun i => if i = 4 then 9 else 0⟩ = 16) :=
  ⟨⟨rfl, (tdb_live_rec_dispatch ⟨0, 0, 0, 0, 0⟩ ⟨0, fun i => if i = 4 then 9 else 0⟩).2.1 rfl⟩,
    ⟨by decide,
      (tdb_live_rec_dispatch ⟨0, 0, 0, 0, 16⟩ ⟨0, fun i => if i = 4 then 9 else 0⟩).2.2
        (by decide)⟩⟩

/-- C11 (counterexample): a 16 MiB table of 2 MiB extents, with `sizeof(TdbExt)` the 64 bytes
of the `TDB_BLK_BMP_2L`-word block bitmap.  The size is a positive multiple of the extent
size below `TDB_MAX_DB_SZ`, the bitmap has one word, `TDB_HDR_SZ` is 72 and the root node is
at offset 136, which is 8 modulo 64. -/
theorem TDB_HTRIE_ROOT_misaligned_16MiB :
    0 < 2 ^ 24 ∧ 2 ^ 24 % 2 ^ 21 = 0 ∧ 2 ^ 24 ≤ TDB_MAX_DB_SZ ∧
    sizeof_long * TDB_BLK_BMP_2L (2 ^ 21) = 64 ∧
    TDB_EXT_BMP_2L (2 ^ 21) ⟨0, 2 ^ 24, 0, 0, 16⟩ = 1 ∧
    TDB_HDR_SZ (2 ^ 21) ⟨0, 2 ^ 24, 0, 0, 16⟩ = 72 ∧
    TDB_HTRIE_ROOT (2 ^ 21) 64 0 ⟨0, 2 ^ 24, 0, 0, 16⟩ = 136 ∧
    ¬ ((TDB_HDR_SZ (2 ^ 21) ⟨0, 2 ^ 24, 0, 0, 16⟩ + 64) % 64 = 0) := by
  decide

/-- C11 (amended): the root node lies `TDB_HDR_SZ(h) + sizeof(TdbExt)
= 64 + 8 * TDB_EXT_BMP_2L(h) + sizeof(TdbExt)` bytes after the header.  With `sizeof(TdbExt)`
a multiple of 64 this offset is always a multiple of 8, and it is a multiple of 64 exactly
when the number of bitmap words `TDB_EXT_BMP_2L(h)` is a multiple of 8. -/
theorem TDB_HTRIE_ROOT_offset (TDB_EXT_SZ sizeof_TdbExt hp : Nat) (h : TdbHdr)
    (hext : sizeof_TdbExt % 64 = 0)
    (hfit : hp + (TDB_HDR_SZ TDB_EXT_SZ h + sizeof_TdbExt) < 2 ^ 64) :
    TDB_HTRIE_ROOT TDB_EXT_SZ sizeof_TdbExt hp h
      = hp + (TDB_HDR_SZ TDB_EXT_SZ h + sizeof_TdbExt) ∧
    TDB_HDR_SZ TDB_EXT_SZ h + sizeof_TdbExt
      = 64 + 8 * TDB_EXT_BMP_2L TDB_EXT_SZ h + sizeof_TdbExt ∧
    (TDB_HDR_SZ TDB_EXT_SZ h + sizeof_TdbExt) % 8 = 0 ∧
    ((TDB_HDR_SZ TDB_EXT_SZ h + sizeof_TdbExt) % 64 = 0
      ↔ TDB_EXT_BMP_2L TDB_EXT_SZ h % 8 = 0) := by
  have hsz := TDB_HDR_SZ_eq TDB_EXT_SZ h
  refine ⟨?_, by rw [hsz], by rw [hsz]; omega, by rw [hsz]; omega⟩
  unfold TDB_HTRIE_ROOT u64
  rw [Nat.mod_eq_of_lt (a := hp + TDB_HDR_SZ TDB_EXT_SZ h) (by omega),
    Nat.mod_eq_of_lt (by omega)]
  omega

/-- Witness of C11 (amended): a 1 GiB table of 2 MiB extents has 8 bitmap words and its root
node is cache-line aligned. -/
theorem TDB_HTRIE_ROOT_offset_witness :
    64 % 64 = 0 ∧
    0x7f0000000000 + (TDB_HDR_SZ (2 ^ 21) ⟨0, 2 ^ 30, 0, 0, 16⟩ + 64) < 2 ^ 64 ∧
    (TDB_HTRIE_ROOT (2 ^ 21) 64 0x7f0000000000 ⟨0, 2 ^ 30, 0, 0, 16⟩
      = 0x7f0000000000 + (TDB_HDR_SZ (2 ^ 21) ⟨0, 2 ^ 30, 0, 0, 16⟩ + 64) ∧
    TDB_HDR_SZ (2 ^ 21) ⟨0, 2 ^ 30, 0, 0, 16⟩ + 64
      = 64 + 8 * TDB_EXT_BMP_2L (2 ^ 21) ⟨0, 2 ^ 30, 0, 0, 16⟩ + 64 ∧
    (TDB_HDR_SZ (2 ^ 21) ⟨0, 2 ^ 30, 0, 0, 16⟩ + 64) % 8 = 0 ∧
    ((TDB_HDR_SZ (2 ^ 21) ⟨0, 2 ^ 30, 0, 0, 16⟩ + 64) % 64 = 0
      ↔ TDB_EXT_BMP_2L (2 ^ 21) ⟨0, 2 ^ 30, 0, 0, 16⟩ % 8 = 0)) :=
  ⟨by decide, by decide,
    TDB_HTRIE_ROOT_offset (2 ^ 21) 64 0x7f0000000000 ⟨0, 2 ^ 30, 0, 0, 16⟩ (by decide)
      (by decide)⟩

/-- C12: for a table of `n` extents (`dbsz = n * TDB_EXT_SZ`, `TDB_EXT_SZ > 0`, the sum
`dbsz / TDB_EXT_SZ + 63` within `unsigned long`, as it is for every extent size of at least
2 bytes), `TDB_EXT_BMP_2L(h)` is `ceil(dbsz / TDB_EXT_SZ / 64)`: the least number of 64-bit
words with one bit per extent. -/
theorem TDB_EXT_BMP_2L_ceil (TDB_EXT_SZ n : Nat) (h : TdbHdr) (hE : 0 < TDB_EXT_SZ)
    (hdb : h.dbsz = n * TDB_EXT_SZ) (hnw : h.dbsz / TDB_EXT_SZ + 63 < 2 ^ 64) :
    h.dbsz / TDB_EXT_SZ = n ∧
    TDB_EXT_BMP_2L TDB_EXT_SZ h = ⌈((h.dbsz / TDB_EXT_SZ : Nat) : ℚ) / 64⌉₊ ∧
    h.dbsz / TDB_EXT_SZ ≤ 64 * TDB_EXT_BMP_2L TDB_EXT_SZ h ∧
    64 * TDB_EXT_BMP_2L TDB_EXT_SZ h < h.dbsz / TDB_EXT_SZ + 64 ∧
    (∀ words, h.dbsz / TDB_EXT_SZ ≤ 64 * words → TDB_EXT_BMP_2L TDB_EXT_SZ h ≤ words) := by
  have hq : h.dbsz / TDB_EXT_SZ = n := by
    rw [hdb]; exact Nat.mul_div_cancel n hE
  have hw := TDB_EXT_BMP_2L_eq TDB_EXT_SZ h hnw
  rw [hq] at hw ⊢
  rw [hw]
  refine ⟨rfl, ?_, by omega, by omega, fun words hwords => by omega⟩
  symm
  apply le_antisymm
  · apply Nat.ceil_le.mpr
    rw [div_le_iff₀ (by norm_num)]
    have : n ≤ (n + 63) / 64 * 64 := by omega
    exact_mod_cast this
  · have h1 : (n : ℚ) / 64 ≤ (⌈(n : ℚ) / 64⌉₊ : ℚ) := Nat.le_ceil _
    rw [div_le_iff₀ (by norm_num)] at h1
    have h2 : n ≤ ⌈(n : ℚ) / 64⌉₊ * 64 := by exact_mod_cast h1
    omega

/-- Witness of C12: the largest table, 65536 extents of 2 MiB, needs 1024 words. -/
theorem TDB_EXT_BMP_2L_ceil_witness :
    0 < 2 ^ 21 ∧ 2 ^ 37 = 65536 * 2 ^ 21 ∧ 2 ^ 37 / 2 ^ 21 + 63 < 2 ^ 64 ∧
    (2 ^ 37 / 2 ^ 21 = 65536 ∧
    TDB_EXT_BMP_2L (2 ^ 21) ⟨0, 2 ^ 37, 0, 0, 16⟩ = ⌈((2 ^ 37 / 2 ^ 21 : Nat) : ℚ) / 64⌉₊ ∧
    2 ^ 37 / 2 ^ 21 ≤ 64 * TDB_EXT_BMP_2L (2 ^ 21) ⟨0, 2 ^ 37, 0, 0, 16⟩ ∧
    64 * TDB_EXT_BMP_2L (2 ^ 21) ⟨0, 2 ^ 37, 0, 0, 16⟩ < 2 ^ 37 / 2 ^ 21 + 64 ∧
    (∀ words, 2 ^ 37 / 2 ^ 21 ≤ 64 * words →
      TDB_EXT_BMP_2L (2 ^ 21) ⟨0, 2 ^ 37, 0, 0, 16⟩ ≤ words)) :=
  ⟨by decide, by decide, by decide,
    TDB_EXT_BMP_2L_ceil (2 ^ 21) 65536 ⟨0, 2 ^ 37, 0, 0, 16⟩ (by decide) (by decide)
      (by decide)⟩

/-- C14 (counterexample): for the key `0xFE00000000000021` the digit at depth 0 is 1, the
least significant digit, while the most significant four bits `k >> 60` are `0xF`; the digit
at depth 1 is 2, while the second most significant digit is `0xE`. -/
theorem TDB_HTRIE_IDX_depth0_not_top_digit :
    (0xFE00000000000021 : Nat) < 2 ^ 64 ∧
    TDB_HTRIE_IDX 0xFE00000000000021 0 = 1 ∧
    0xFE00000000000021 >>> 60 = 0xF ∧
    TDB_HTRIE_IDX 0xFE00000000000021 0 ≠ 0xFE00000000000021 >>> 60 ∧
    TDB_HTRIE_IDX 0xFE00000000000021 (4 * 1) = 2 ∧
    0xFE00000000000021 / 16 ^ (15 - 1) % 16 = 0xE ∧
    TDB_HTRIE_IDX 0xFE00000000000021 (4 * 1) ≠ 0xFE00000000000021 / 16 ^ (15 - 1) % 16 := by
  decide

/-- C14 (amended): the digits are taken least-significant first.  For a 64-bit key `k` and a
depth `d < 16`, the digit at depth 0 is the least significant four bits `k & 15`, the digit
at depth `d` is the `(d + 1)`-th least significant hex digit `k / 16 ^ d % 16`, and the most
significant four bits `k >> 60` are the digit of the last depth, 15; the `(d + 1)`-th most
significant digit is the one used at depth `15 - d`. -/
theorem TDB_HTRIE_IDX_least_significant_first (k d : Nat) (hk : k < 2 ^ 64) (hd : d < 16) :
    TDB_HTRIE_IDX k 0 = k % 16 ∧
    TDB_HTRIE_IDX k (4 * d) = k / 16 ^ d % 16 ∧
    TDB_HTRIE_IDX k (4 * 15) = k >>> 60 ∧
    TDB_HTRIE_IDX k (4 * (15 - d)) = k / 16 ^ (15 - d) % 16 ∧
    4 * (15 - d) + TDB_HTRIE_BITS ≤ BITS_PER_LONG := by
  have hpow : ∀ e, k / 2 ^ (4 * e) = k / 16 ^ e := by
    intro e
    rw [Nat.pow_mul]
  refine ⟨?_, ?_, ?_, ?_, ?_⟩
  · rw [TDB_HTRIE_IDX_eq]; simp
  · rw [TDB_HTRIE_IDX_eq, hpow]
  · rw [TDB_HTRIE_IDX_eq, Nat.shiftRight_eq_div_pow]
    have : k / 2 ^ 60 < 16 := by omega
    norm_num
    omega
  · rw [TDB_HTRIE_IDX_eq, hpow]
  · rw [show TDB_HTRIE_BITS = 4 by decide, show BITS_PER_LONG = 64 by decide]; omega

/-- Witness of C14 (amended): the digits of `0xFE00000000000021` at depths 0, 1, 15 and 14. -/
theorem TDB_HTRIE_IDX_least_significant_first_witness :
    (0xFE00000000000021 : Nat) < 2 ^ 64 ∧ (1 : Nat) < 16 ∧
    (TDB_HTRIE_IDX 0xFE00000000000021 0 = 0xFE00000000000021 % 16 ∧
    TDB_HTRIE_IDX 0xFE00000000000021 (4 * 1) = 0xFE00000000000021 / 16 ^ 1 % 16 ∧
    TDB_HTRIE_IDX 0xFE00000000000021 (4 * 15) = 0xFE00000000000021 >>> 60 ∧
    TDB_HTRIE_IDX 0xFE00000000000021 (4 * (15 - 1))
      = 0xFE00000000000021 / 16 ^ (15 - 1) % 16 ∧
    4 * (15 - 1) + TDB_HTRIE_BITS ≤ BITS_PER_LONG) :=
  ⟨by decide, by decide,
    TDB_HTRIE_IDX_least_significant_first 0xFE00000000000021 1 (by decide) (by decide)⟩

/-- C15: in a 32-bit or 64-bit unsigned type, an index whose product does not overflow
round-trips through `TDB_II2O`/`TDB_O2II` and `TDB_DI2O`/`TDB_O2DI`; a byte offset
round-trips exactly when it is a multiple of 64, respectively 128; `TDB_HTRIE_IALIGN(n)` and
`TDB_HTRIE_DALIGN(n)` are the least multiples of 64 and 128 that are at least `n` (where
`n + 63`, `n + 127` do not overflow), are idempotent and round-trip for every `n`. -/
theorem offset_index_roundtrip (w i o n : Nat) (hw : w = 32 ∨ w = 64) (ho : o < 2 ^ w)
    (hn : n < 2 ^ w) :
    (i * 64 < 2 ^ w → TDB_O2II (TDB_II2O w i) = i) ∧
    (i * 128 < 2 ^ w → TDB_O2DI (TDB_DI2O w i) = i) ∧
    (TDB_II2O w (TDB_O2II o) = o ↔ o % 64 = 0) ∧
    (TDB_DI2O w (TDB_O2DI o) = o ↔ o % 128 = 0) ∧
    (n + 63 < 2 ^ w →
      TDB_HTRIE_IALIGN w n % 64 = 0 ∧ n ≤ TDB_HTRIE_IALIGN w n ∧
      ∀ m, m % 64 = 0 → n ≤ m → TDB_HTRIE_IALIGN w n ≤ m) ∧
    (n + 127 < 2 ^ w →
      TDB_HTRIE_DALIGN w n % 128 = 0 ∧ n ≤ TDB_HTRIE_DALIGN w n ∧
      ∀ m, m % 128 = 0 → n ≤ m → TDB_HTRIE_DALIGN w n ≤ m) ∧
    TDB_HTRIE_IALIGN w (TDB_HTRIE_IALIGN w n) = TDB_HTRIE_IALIGN w n ∧
    TDB_HTRIE_DALIGN w (TDB_HTRIE_DALIGN w n) = TDB_HTRIE_DALIGN w n ∧
    TDB_II2O w (TDB_O2II (TDB_HTRIE_IALIGN w n)) = TDB_HTRIE_IALIGN w n ∧
    TDB_DI2O w (TDB_O2DI (TDB_HTRIE_DALIGN w n)) = TDB_HTRIE_DALIGN w n := by
  have hI := IALIGN_eq w n hw
  have hD := DALIGN_eq w n hw
  have hII := IALIGN_eq w (TDB_HTRIE_IALIGN w n) hw
  have hDD := DALIGN_eq w (TDB_HTRIE_DALIGN w n) hw
  have e1 : TDB_HTRIE_NODE_SZ = 64 := by decide
  have e2 : TDB_HTRIE_MINDREC = 128 := by decide
  unfold TDB_O2II TDB_II2O TDB_O2DI TDB_DI2O
  rw [e1, e2, hII, hDD, hI, hD]
  rcases hw with rfl | rfl
  · refine ⟨fun h => ?_, fun h => ?_, ?_, ?_, fun h => ⟨?_, ?_, fun m hm hnm => ?_⟩,
      fun h => ⟨?_, ?_, fun m hm hnm => ?_⟩, ?_, ?_, ?_, ?_⟩ <;> omega
  · refine ⟨fun h => ?_, fun h => ?_, ?_, ?_, fun h => ⟨?_, ?_, fun m hm hnm => ?_⟩,
      fun h => ⟨?_, ?_, fun m hm hnm => ?_⟩, ?_, ?_, ?_, ?_⟩ <;> omega

/-- C16: for a chunk with a 32-bit `len`, setting `TDB_HTRIE_VRFREED` leaves
`TDB_HTRIE_VRLEN` unchanged and below `2 ^ 31`, makes `tdb_live_vsrec` false, and is
idempotent; for a live chunk `TDB_HTRIE_VRLEN` is the raw `len`. -/
theorem VRFREED_keeps_VRLEN (r : TdbVRec) (hlen : r.len < 2 ^ 32) :
    TDB_HTRIE_VRLEN ⟨r.key, r.chunk_next, r.len ||| TDB_HTRIE_VRFREED, r.data⟩
      = TDB_HTRIE_VRLEN r ∧
    TDB_HTRIE_VRLEN r < 2 ^ 31 ∧
    r.len ||| TDB_HTRIE_VRFREED < 2 ^ 32 ∧
    tdb_live_vsrec ⟨r.key, r.chunk_next, r.len ||| TDB_HTRIE_VRFREED, r.data⟩ = 0 ∧
    (r.len ||| TDB_HTRIE_VRFREED) ||| TDB_HTRIE_VRFREED = r.len ||| TDB_HTRIE_VRFREED ∧
    (tdb_live_vsrec r ≠ 0 → TDB_HTRIE_VRLEN r = r.len) := by
  have hor := or_VRFREED r.len hlen
  have hlt : r.len ||| TDB_HTRIE_VRFREED < 2 ^ 32 := by rw [hor]; omega
  have hand : ∀ v, v < 2 ^ 32 → v &&& TDB_HTRIE_VRFREED = v / 2 ^ 31 * 2 ^ 31 := and_DBIT
  refine ⟨?_, ?_, hlt, ?_, ?_, ?_⟩
  · rw [VRLEN_eq, VRLEN_eq]
    show (r.len ||| TDB_HTRIE_VRFREED) % 2 ^ 31 = r.len % 2 ^ 31
    rw [hor]; omega
  · rw [VRLEN_eq]; omega
  · unfold tdb_live_vsrec
    rw [if_neg]
    show ¬ ((r.len ||| TDB_HTRIE_VRFREED) ≠ 0 ∧
      ¬ ((r.len ||| TDB_HTRIE_VRFREED) &&& TDB_HTRIE_VRFREED ≠ 0))
    rw [hand _ hlt, hor]
    omega
  · rw [Nat.or_assoc, Nat.or_self]
  · intro hlive
    rw [VRLEN_eq]
    unfold tdb_live_vsrec at hlive
    split at hlive
    · rename_i hc
      rw [hand _ hlen] at hc
      omega
    · exact absurd rfl hlive

/-- Witness of C16: a live chunk of 32 bytes. -/
theorem VRFREED_keeps_VRLEN_witness :
    (32 : Nat) < 2 ^ 32 ∧
    (TDB_HTRIE_VRLEN ⟨1, 0, 32 ||| TDB_HTRIE_VRFREED, fun _ => 0⟩
      = TDB_HTRIE_VRLEN ⟨1, 0, 32, fun _ => 0⟩ ∧
    TDB_HTRIE_VRLEN ⟨1, 0, 32, fun _ => 0⟩ < 2 ^ 31 ∧
    32 ||| TDB_HTRIE_VRFREED < 2 ^ 32 ∧
    tdb_live_vsrec ⟨1, 0, 32 ||| TDB_HTRIE_VRFREED, fun _ => 0⟩ = 0 ∧
    (32 ||| TDB_HTRIE_VRFREED) ||| TDB_HTRIE_VRFREED = 32 ||| TDB_HTRIE_VRFREED ∧
    (tdb_live_vsrec ⟨1, 0, 32, fun _ => 0⟩ ≠ 0 →
      TDB_HTRIE_VRLEN ⟨1, 0, 32, fun _ => 0⟩ = 32)) :=
  ⟨by decide, VRFREED_keeps_VRLEN ⟨1, 0, 32, fun _ => 0⟩ (by decide)⟩

/-- Witness of C15: index 5, offset 192 and size 65 in `unsigned long`. -/
theorem offset_index_roundtrip_witness :
    ((64 : Nat) = 32 ∨ (64 : Nat) = 64) ∧ 192 < 2 ^ 64 ∧ 65 < 2 ^ 64 ∧
    ((5 * 64 < 2 ^ 64 → TDB_O2II (TDB_II2O 64 5) = 5) ∧
    (5 * 128 < 2 ^ 64 → TDB_O2DI (TDB_DI2O 64 5) = 5) ∧
    (TDB_II2O 64 (TDB_O2II 192) = 192 ↔ 192 % 64 = 0) ∧
    (TDB_DI2O 64 (TDB_O2DI 192) = 192 ↔ 192 % 128 = 0) ∧
    (65 + 63 < 2 ^ 64 →
      TDB_HTRIE_IALIGN 64 65 % 64 = 0 ∧ 65 ≤ TDB_HTRIE_IALIGN 64 65 ∧
      ∀ m, m % 64 = 0 → 65 ≤ m → TDB_HTRIE_IALIGN 64 65 ≤ m) ∧
    (65 + 127 < 2 ^ 64 →
      TDB_HTRIE_DALIGN 64 65 % 128 = 0 ∧ 65 ≤ TDB_HTRIE_DALIGN 64 65 ∧
      ∀ m, m % 128 = 0 → 65 ≤ m → TDB_HTRIE_DALIGN 64 65 ≤ m) ∧
    TDB_HTRIE_IALIGN 64 (TDB_HTRIE_IALIGN 64 65) = TDB_HTRIE_IALIGN 64 65 ∧
    TDB_HTRIE_DALIGN 64 (TDB_HTRIE_DALIGN 64 65) = TDB_HTRIE_DALIGN 64 65 ∧
    TDB_II2O 64 (TDB_O2II (TDB_HTRIE_IALIGN 64 65)) = TDB_HTRIE_IALIGN 64 65 ∧
    TDB_DI2O 64 (TDB_O2DI (TDB_HTRIE_DALIGN 64 65)) = TDB_HTRIE_DALIGN 64 65) :=
  ⟨Or.inr rfl, by decide, by decide,
    offset_index_roundtrip 64 5 192 65 (Or.inr rfl) (by decide) (by decide)⟩

/-- C13: `tdb_hash_calc` depends only on the `len` input bytes and on `len`; it runs the
reads of two streams from CRCs started at 0 and, the CRC steps being 32-bit valued, its low
32 bits are the final `crc0` and its high 32 bits the final `crc1`; the `j`-th full 16-byte
pair feeds its first word `d[2j]` to `crc0` and its second word `d[2j + 1]` to `crc1`.
Stated for `len < 2 ^ 34`, where the `int` word counter stays below `2 ^ 31`. -/
theorem tdb_hash_calc_streams (crcq crcb : Nat → Nat → Nat) (data : Nat → Nat)
    (len : Nat) (hq : ∀ c d, crcq c d < 2 ^ 32) (hb : ∀ c d, crcb c d < 2 ^ 32)
    (hlen : len < 2 ^ 34) :
    (len >>> 3) &&& not64 1 < 2 ^ 31 ∧
    (∀ data' : Nat → Nat, (∀ p, p < len → data p = data' p) →
      tdb_hash_calc crcq crcb data len = tdb_hash_calc crcq crcb data' len) ∧
    __tdb_hash_calc crcq crcb (fun i => load64 data (8 * i)) data 0 0 len =
      (crc_feed crcq crcb (fun i => load64 data (8 * i)) data 0 (__tdb_hash_calc_reads len).1,
       crc_feed crcq crcb (fun i => load64 data (8 * i)) data 0
        (__tdb_hash_calc_reads len).2) ∧
    tdb_hash_calc crcq crcb data len =
      (__tdb_hash_calc crcq crcb (fun i => load64 data (8 * i)) data 0 0 len).2 * 2 ^ 32
        + (__tdb_hash_calc crcq crcb (fun i => load64 data (8 * i)) data 0 0 len).1 ∧
    tdb_hash_calc crcq crcb data len % 2 ^ 32 =
      (__tdb_hash_calc crcq crcb (fun i => load64 data (8 * i)) data 0 0 len).1 ∧
    tdb_hash_calc crcq crcb data len / 2 ^ 32 =
      (__tdb_hash_calc crcq crcb (fun i => load64 data (8 * i)) data 0 0 len).2 ∧
    (∀ j, j < len / 16 →
      (__tdb_hash_calc_reads len).1[j]? = some (CrcRead.word (2 * j)) ∧
      (__tdb_hash_calc_reads len).2[j]? = some (CrcRead.word (2 * j + 1))) := by
  have hlen' : len + 8 < 2 ^ 64 := by omega
  obtain ⟨h1, h2, hadd⟩ := tdb_hash_calc_eq_add crcq crcb data len hq hb hlen'
  obtain ⟨hwords, hbytes⟩ := hash_reads_kinds len hlen'
  have hfeed := hash_calc_eq_feed crcq crcb (fun i => load64 data (8 * i)) data 0 0 len hlen'
  refine ⟨?_, ?_, hfeed, ?_, ?_, ?_, ?_⟩
  · rw [hash_pair_words_eq len (by omega)]; omega
  · intro data' hsame
    have hfeed' :=
      hash_calc_eq_feed crcq crcb (fun i => load64 data' (8 * i)) data' 0 0 len hlen'
    have hcongr : ∀ (reads : List CrcRead),
        (∀ r, r ∈ reads →
          r ∈ (__tdb_hash_calc_reads len).1 ++ (__tdb_hash_calc_reads len).2) →
        crc_feed crcq crcb (fun i => load64 data (8 * i)) data 0 reads =
          crc_feed crcq crcb (fun i => load64 data' (8 * i)) data' 0 reads := by
      intro reads hsub
      apply crc_feed_congr
      · intro i hi
        have := hwords i (hsub _ hi)
        apply load64_congr
        intro c hc
        exact hsame _ (by omega)
      · intro n hn
        exact hsame n ((hbytes n).mp (hsub _ hn)).2
    have e1 := hcongr (__tdb_hash_calc_reads len).1 (fun r hr => List.mem_append_left _ hr)
    have e2 := hcongr (__tdb_hash_calc_reads len).2 (fun r hr => List.mem_append_right _ hr)
    unfold tdb_hash_calc
    simp only []
    rw [hfeed, hfeed']
    simp only []
    rw [e1, e2]
  · rw [hadd]; omega
  · rw [hadd]; omega
  · rw [hadd]; omega
  · intro j hj
    rw [hash_calc_reads_eq len hlen']
    simp only []
    rw [List.getElem?_append_left (by simp; exact hj), List.getElem?_map,
      List.getElem?_range' _ _ hj,
      List.getElem?_append_left (by simp; exact hj), List.getElem?_map,
      List.getElem?_range' _ _ hj]
    simp

/-- Witness of C13: a 40-byte key, two full pairs and one more word. -/
theorem tdb_hash_calc_streams_witness :
    (∀ c d, crc_example c d < 2 ^ 32) ∧ (40 : Nat) < 2 ^ 34 ∧
    ((40 >>> 3) &&& not64 1 < 2 ^ 31 ∧
    (∀ data' : Nat → Nat, (∀ p, p < 40 → key_example p = data' p) →
      tdb_hash_calc crc_example crc_example key_example 40
        = tdb_hash_calc crc_example crc_example data' 40) ∧
    __tdb_hash_calc crc_example crc_example (fun i => load64 key_example (8 * i))
        key_example 0 0 40 =
      (crc_feed crc_example crc_example (fun i => load64 key_example (8 * i)) key_example 0
        (__tdb_hash_calc_reads 40).1,
       crc_feed crc_example crc_example (fun i => load64 key_example (8 * i)) key_example 0
        (__tdb_hash_calc_reads 40).2) ∧
    tdb_hash_calc crc_example crc_example key_example 40 =
      (__tdb_hash_calc crc_example crc_example (fun i => load64 key_example (8 * i))
        key_example 0 0 40).2 * 2 ^ 32
      + (__tdb_hash_calc crc_example crc_example (fun i => load64 key_example (8 * i))
        key_example 0 0 40).1 ∧
    tdb_hash_calc crc_example crc_example key_example 40 % 2 ^ 32 =
      (__tdb_hash_calc crc_example crc_example (fun i => load64 key_example (8 * i))
        key_example 0 0 40).1 ∧
    tdb_hash_calc crc_example crc_example key_example 40 / 2 ^ 32 =
      (__tdb_hash_calc crc_example crc_example (fun i => load64 key_example (8 * i))
        key_example 0 0 40).2 ∧
    (∀ j, j < 40 / 16 →
      (__tdb_hash_calc_reads 40).1[j]? = some (CrcRead.word (2 * j)) ∧
      (__tdb_hash_calc_reads 40).2[j]? = some (CrcRead.word (2 * j + 1)))) :=
  ⟨fun _ _ => Nat.mod_lt _ (by decide), by decide,
    tdb_hash_calc_streams crc_example crc_example key_example 40
      (fun _ _ => Nat.mod_lt _ (by decide)) (fun _ _ => Nat.mod_lt _ (by decide))
      (by decide)⟩

/-- C17: on an input of `len < 2 ^ 31` bytes the reads of `__tdb_hash_calc` cover every byte
position below `len` exactly once and no other position; the positions fed to each stream
increase in program order; word reads lie below `8 * (len / 8)` and the byte reads are
exactly the positions from there to `len - 1`; the CRCs computed are the initial ones fed
with these reads; for `len = 0` nothing is read and `tdb_hash_calc` is 0. -/
theorem hash_reads_cover_input (len p : Nat) (hlen : len < 2 ^ 31) :
    (((__tdb_hash_calc_reads len).1 ++ (__tdb_hash_calc_reads len).2).flatMap
      CrcRead.bytes).count p = (if p < len then 1 else 0) ∧
    (∀ q, q ∈ ((__tdb_hash_calc_reads len).1 ++ (__tdb_hash_calc_reads len).2).flatMap
      CrcRead.bytes → q < len) ∧
    ((__tdb_hash_calc_reads len).1.flatMap CrcRead.bytes).Pairwise (fun a b => a < b) ∧
    ((__tdb_hash_calc_reads len).2.flatMap CrcRead.bytes).Pairwise (fun a b => a < b) ∧
    (∀ i, CrcRead.word i ∈ (__tdb_hash_calc_reads len).1 ++ (__tdb_hash_calc_reads len).2 →
      8 * i + 8 ≤ 8 * (len / 8)) ∧
    (∀ n, CrcRead.byte n ∈ (__tdb_hash_calc_reads len).1 ++ (__tdb_hash_calc_reads len).2 ↔
      8 * (len / 8) ≤ n ∧ n < len) ∧
    (∀ (crcq crcb : Nat → Nat → Nat) (data : Nat → Nat) (crc0 crc1 : Nat),
      __tdb_hash_calc crcq crcb (fun i => load64 data (8 * i)) data crc0 crc1 len =
        (crc_feed crcq crcb (fun i => load64 data (8 * i)) data crc0
          (__tdb_hash_calc_reads len).1,
         crc_feed crcq crcb (fun i => load64 data (8 * i)) data crc1
          (__tdb_hash_calc_reads len).2)) ∧
    __tdb_hash_calc_reads 0 = ([], []) ∧
    (∀ (crcq crcb : Nat → Nat → Nat) (data : Nat → Nat),
      tdb_hash_calc crcq crcb data 0 = 0) := by
  have hlen' : len + 8 < 2 ^ 64 := by omega
  obtain ⟨hinc0, hinc1⟩ := hash_reads_increasing len hlen'
  obtain ⟨hwords, hbytes⟩ := hash_reads_kinds len hlen'
  refine ⟨hash_reads_count len p hlen', ?_, hinc0, hinc1, hwords, hbytes, ?_, by decide, ?_⟩
  · intro q hq
    have hpos := List.count_pos_iff.mpr hq
    rw [hash_reads_count len q hlen'] at hpos
    split_ifs at hpos with h
    · exact h
    · omega
  · intro crcq crcb data crc0 crc1
    exact hash_calc_eq_feed crcq crcb _ data crc0 crc1 len hlen'
  · intro crcq crcb data
    have h0 := hash_calc_eq_feed crcq crcb (fun i => load64 data (8 * i)) data 0 0 0
      (by decide)
    rw [show __tdb_hash_calc_reads 0 = ([], []) by decide] at h0
    unfold tdb_hash_calc
    simp only []
    rw [h0]
    show u64 (0 <<< 32) ||| 0 = 0
    decide

/-- Witness of C17: a 27-byte input, position 26. -/
theorem hash_reads_cover_input_witness :
    (27 : Nat) < 2 ^ 31 ∧
    ((((__tdb_hash_calc_reads 27).1 ++ (__tdb_hash_calc_reads 27).2).flatMap
      CrcRead.bytes).count 26 = (if 26 < 27 then 1 else 0) ∧
    (∀ q, q ∈ ((__tdb_hash_calc_reads 27).1 ++ (__tdb_hash_calc_reads 27).2).flatMap
      CrcRead.bytes → q < 27) ∧
    ((__tdb_hash_calc_reads 27).1.flatMap CrcRead.bytes).Pairwise (fun a b => a < b) ∧
    ((__tdb_hash_calc_reads 27).2.flatMap CrcRead.bytes).Pairwise (fun a b => a < b) ∧
    (∀ i, CrcRead.word i ∈ (__tdb_hash_calc_reads 27).1 ++ (__tdb_hash_calc_reads 27).2 →
      8 * i + 8 ≤ 8 * (27 / 8)) ∧
    (∀ n, CrcRead.byte n ∈ (__tdb_hash_calc_reads 27).1 ++ (__tdb_hash_calc_reads 27).2 ↔
      8 * (27 / 8) ≤ n ∧ n < 27) ∧
    (∀ (crcq crcb : Nat → Nat → Nat) (data : Nat → Nat) (crc0 crc1 : Nat),
      __tdb_hash_calc crcq crcb (fun i => load64 data (8 * i)) data crc0 crc1 27 =
        (crc_feed crcq crcb (fun i => load64 data (8 * i)) data crc0
          (__tdb_hash_calc_reads 27).1,
         crc_feed crcq crcb (fun i => load64 data (8 * i)) data crc1
          (__tdb_hash_calc_reads 27).2)) ∧
    __tdb_hash_calc_reads 0 = ([], []) ∧
    (∀ (crcq crcb : Nat → Nat → Nat) (data : Nat → Nat),
      tdb_hash_calc crcq crcb data 0 = 0)) :=
  ⟨by decide, hash_reads_cover_input 27 26 (by decide)⟩

/-- C18: for an input of at most 8 bytes `__tdb_hash_calc` leaves `crc1` as it was and feeds
nothing to the second stream, so `tdb_hash_calc` is the final `crc0`; with 32-bit CRC steps
the hash is below `2 ^ 32` and its digits `TDB_HTRIE_IDX(hash, 4 * d)` for `d = 8..15`
(`b = 32..60`) are 0. -/
theorem tdb_hash_calc_short_key (crcq crcb : Nat → Nat → Nat) (data : Nat → Nat)
    (len d crc0 crc1 : Nat) (hq : ∀ c x, crcq c x < 2 ^ 32) (hb : ∀ c x, crcb c x < 2 ^ 32)
    (hlen : len ≤ 8) (hd8 : 8 ≤ d) (hd16 : d < 16) :
    (__tdb_hash_calc_reads len).2 = [] ∧
    (__tdb_hash_calc crcq crcb (fun i => load64 data (8 * i)) data crc0 crc1 len).2 = crc1 ∧
    tdb_hash_calc crcq crcb data len =
      (__tdb_hash_calc crcq crcb (fun i => load64 data (8 * i)) data 0 0 len).1 ∧
    tdb_hash_calc crcq crcb data len < 2 ^ 32 ∧
    tdb_hash_calc crcq crcb data len / 2 ^ 32 = 0 ∧
    TDB_HTRIE_IDX (tdb_hash_calc crcq crcb data len) (4 * d) = 0 := by
  have hlen' : len + 8 < 2 ^ 64 := by omega
  have hreads : (__tdb_hash_calc_reads len).2 = [] := by
    rw [hash_calc_reads_eq len hlen']
    have hm : len / 16 = 0 := by omega
    simp only [hm]
    by_cases hc : 8 ≤ len % 16
    · have : len - (16 * 0 + 8) = 0 := by omega
      simp [hc, this]
    · simp [hc]
  have hsnd : ∀ c0 c1,
      (__tdb_hash_calc crcq crcb (fun i => load64 data (8 * i)) data c0 c1 len).2 = c1 := by
    intro c0 c1
    rw [hash_calc_eq_feed crcq crcb _ data c0 c1 len hlen', hreads]
    rfl
  obtain ⟨h1, _, hadd⟩ := tdb_hash_calc_eq_add crcq crcb data len hq hb hlen'
  rw [hsnd 0 0] at hadd
  have hval : tdb_hash_calc crcq crcb data len =
      (__tdb_hash_calc crcq crcb (fun i => load64 data (8 * i)) data 0 0 len).1 := by
    rw [hadd]; omega
  have hlt : tdb_hash_calc crcq crcb data len < 2 ^ 32 := by rw [hval]; exact h1
  refine ⟨hreads, hsnd crc0 crc1, hval, hlt, by omega, ?_⟩
  rw [TDB_HTRIE_IDX_eq]
  have hpow : 2 ^ 32 ≤ 2 ^ (4 * d) := Nat.pow_le_pow_right (by decide) (by omega)
  rw [Nat.div_eq_of_lt (by omega)]

/-- Witness of C18: an 8-byte key, digit 8. -/
theorem tdb_hash_calc_short_key_witness :
    (∀ c d, crc_example c d < 2 ^ 32) ∧ (8 : Nat) ≤ 8 ∧ (8 : Nat) ≤ 8 ∧ (8 : Nat) < 16 ∧
    ((__tdb_hash_calc_reads 8).2 = [] ∧
    (__tdb_hash_calc crc_example crc_example (fun i => load64 key_example (8 * i))
      key_example 0 7 8).2 = 7 ∧
    tdb_hash_calc crc_example crc_example key_example 8 =
      (__tdb_hash_calc crc_example crc_example (fun i => load64 key_example (8 * i))
        key_example 0 0 8).1 ∧
    tdb_hash_calc crc_example crc_example key_example 8 < 2 ^ 32 ∧
    tdb_hash_calc crc_example crc_example key_example 8 / 2 ^ 32 = 0 ∧
    TDB_HTRIE_IDX (tdb_hash_calc crc_example crc_example key_example 8) (4 * 8) = 0) :=
  ⟨fun _ _ => Nat.mod_lt _ (by decide), by decide, by decide, by decide,
    tdb_hash_calc_short_key crc_example crc_example key_example 8 8 0 7
      (fun _ _ => Nat.mod_lt _ (by decide)) (fun _ _ => Nat.mod_lt _ (by decide))
      (by decide) (by decide) (by decide)⟩

/-- C19: for a 32-bit `rec_len` that is not a multiple of 8 there is alignment padding after
the body and two records with key 0 and all-zero body, equal everywhere outside the
`TDB_HTRIE_RALIGN(8 + rec_len) - (8 + rec_len)` padding bytes, have different liveness; for a
`rec_len` that is a multiple of 8 there is no padding and two records with the same key and
the same `rec_len` body bytes have the same liveness. -/
theorem tdb_live_fsrec_reads_padding (dbh : TdbHdr) (hlen : dbh.rec_len < 2 ^ 32) :
    (dbh.rec_len % 8 ≠ 0 →
      0 < TDB_HTRIE_RALIGN (8 + dbh.rec_len) - (8 + dbh.rec_len) ∧
      ∃ r1 r2 : TdbFRec, r1.key = 0 ∧ r2.key = 0 ∧
        (∀ j, j < dbh.rec_len → r1.data j = 0 ∧ r2.data j = 0) ∧
        (∀ j, TDB_HTRIE_RALIGN (8 + dbh.rec_len) - 8 ≤ j → r1.data j = r2.data j) ∧
        tdb_live_fsrec dbh r1 = 0 ∧ tdb_live_fsrec dbh r2 ≠ 0) ∧
    (dbh.rec_len % 8 = 0 →
      TDB_HTRIE_RALIGN (8 + dbh.rec_len) - (8 + dbh.rec_len) = 0 ∧
      ∀ r1 r2 : TdbFRec, r1.key = r2.key →
        (∀ j, j < dbh.rec_len → r1.data j = r2.data j) →
        tdb_live_fsrec dbh r1 = tdb_live_fsrec dbh r2) := by
  have hR : TDB_HTRIE_RALIGN (8 + dbh.rec_len) = (dbh.rec_len + 15) / 8 * 8 := by
    rw [RALIGN_eq _ (by omega)]; omega
  have hL := tdb_live_fsrec_len_eq dbh hlen
  constructor
  · intro hmod
    refine ⟨by rw [hR]; omega, ⟨0, fun _ => 0⟩,
      ⟨0, fun j => if j = dbh.rec_len then 1 else 0⟩, rfl, rfl, ?_, ?_, ?_, ?_⟩
    · intro j hj
      refine ⟨rfl, ?_⟩
      show (if j = dbh.rec_len then 1 else 0) = 0
      rw [if_neg (by omega)]
    · intro j hj
      rw [hR] at hj
      show 0 = (if j = dbh.rec_len then 1 else 0)
      rw [if_neg (by omega)]
    · by_contra hne
      obtain ⟨i, _, hi⟩ := (tdb_live_fsrec_spec dbh ⟨0, fun _ => 0⟩).2.mp hne
      apply hi
      unfold TdbFRec.word load64
      split
      · rfl
      · simp
    · apply (tdb_live_fsrec_spec dbh _).2.mpr
      refine ⟨dbh.rec_len / 8 + 1, by rw [hL]; omega, ?_⟩
      unfold TdbFRec.word
      rw [if_neg (by omega)]
      apply load64_ne_zero _ _ (dbh.rec_len % 8) (by omega)
      show (if 8 * (dbh.rec_len / 8 + 1 - 1) + dbh.rec_len % 8 = dbh.rec_len then 1 else 0) ≠ 0
      rw [if_pos (by omega)]
      decide
  · intro hmod
    refine ⟨by rw [hR]; omega, ?_⟩
    intro r1 r2 hkey hdata
    have hword : ∀ i, i < tdb_live_fsrec_len dbh → r1.word i = r2.word i := by
      intro i hi
      rw [hL] at hi
      unfold TdbFRec.word
      split
      · exact hkey
      · apply load64_congr
        intro c hc
        exact hdata _ (by omega)
    obtain ⟨hle1, hiff1⟩ := tdb_live_fsrec_spec dbh r1
    obtain ⟨hle2, hiff2⟩ := tdb_live_fsrec_spec dbh r2
    have hiff : tdb_live_fsrec dbh r1 ≠ 0 ↔ tdb_live_fsrec dbh r2 ≠ 0 := by
      rw [hiff1, hiff2]
      constructor
      · rintro ⟨i, hi, hne⟩
        exact ⟨i, hi, by rw [← hword i hi]; exact hne⟩
      · rintro ⟨i, hi, hne⟩
        exact ⟨i, hi, by rw [hword i hi]; exact hne⟩
    omega

/-- Witness of C19: 13-byte records carry 3 padding bytes, 16-byte records none. -/
theorem tdb_live_fsrec_reads_padding_witness :
    ((13 : Nat) < 2 ^ 32 ∧ 13 % 8 ≠ 0 ∧
      0 < TDB_HTRIE_RALIGN (8 + 13) - (8 + 13) ∧
      ∃ r1 r2 : TdbFRec, r1.key = 0 ∧ r2.key = 0 ∧
        (∀ j, j < 13 → r1.data j = 0 ∧ r2.data j = 0) ∧
        (∀ j, TDB_HTRIE_RALIGN (8 + 13) - 8 ≤ j → r1.data j = r2.data j) ∧
        tdb_live_fsrec ⟨0, 0, 0, 0, 13⟩ r1 = 0 ∧ tdb_live_fsrec ⟨0, 0, 0, 0, 13⟩ r2 ≠ 0) ∧
    ((16 : Nat) < 2 ^ 32 ∧ 16 % 8 = 0 ∧
      TDB_HTRIE_RALIGN (8 + 16) - (8 + 16) = 0 ∧
      ∀ r1 r2 : TdbFRec, r1.key = r2.key →
        (∀ j, j < 16 → r1.data j = r2.data j) →
        tdb_live_fsrec ⟨0, 0, 0, 0, 16⟩ r1 = tdb_live_fsrec ⟨0, 0, 0, 0, 16⟩ r2) :=
  ⟨⟨by decide, by decide,
      (tdb_live_fsrec_reads_padding ⟨0, 0, 0, 0, 13⟩ (by decide)).1 (by decide)⟩,
    ⟨by decide, by decide,
      (tdb_live_fsrec_reads_padding ⟨0, 0, 0, 0, 16⟩ (by decide)).2 (by decide)⟩⟩

end Htrie
